import Mathlib

/-!
Verification of the over-there-update OTA server against its design
specification.  The repository contains two implementations of the same
check-and-serve design:

* `OtaServer` — the gin-based server in `src/otaserver/main.go`
  (lexicographic string versions, checksum field, blink-one / blink-five
  handler families);
* `SemOta` — the `net/http` + `Masterminds/semver` server in
  `src/unnamed/part_001` (semantic versions, startup scan).

Filesystem state is modelled explicitly: a directory tree (`FsEntry`) feeds
the catalog scan, and a path-indexed map (`FsObj`) feeds `os.Stat` /
`os.Open`.  Go strings are modelled as Lean `String` with Go's byte-wise
lexicographic comparison modelled by `goStringLt` over the character list
(on UTF-8 text the byte order and the code-point order coincide).
-/

/-- Go `<` on strings: byte-wise lexicographic order, modelled on the
character list. -/
def charListLt : List Char → List Char → Bool
  | [], [] => false
  | [], _ :: _ => true
  | _ :: _, [] => false
  | a :: as, b :: bs => if a < b then true else if b < a then false else charListLt as bs

/-- Go `<=` on strings (byte-wise lexicographic). -/
def charListLe : List Char → List Char → Bool
  | [], _ => true
  | _ :: _, [] => false
  | a :: as, b :: bs => if a < b then true else if b < a then false else charListLe as bs

/-- Go `s < o` for strings. -/
def goStringLt (s o : String) : Bool := charListLt s.data o.data

/-- Go `s <= o` for strings. -/
def goStringLe (s o : String) : Bool := charListLe s.data o.data

/-- Split a character list at every occurrence of the separator `c`,
as Go's `strings.Split` does for a one-character separator: the empty
list yields one empty field, and separators at the ends yield empty
fields. -/
def splitOnChar (c : Char) : List Char → List (List Char)
  | [] => [[]]
  | x :: xs =>
    let r := splitOnChar c xs
    if x = c then [] :: r
    else match r with
      | [] => [[x]]
      | h :: t => (x :: h) :: t

/-- Go `strings.Split(s, sep)` for a one-character separator. -/
def goSplit (s : String) (c : Char) : List String :=
  (splitOnChar c s.data).map String.mk

/-- Go `strings.TrimSuffix(s, suffix)`. -/
def stringsTrimSuffix (s suffx : String) : String :=
  if suffx.data.isSuffixOf s.data then
    String.mk (s.data.take (s.data.length - suffx.data.length))
  else s

/-- Walks the reversed character list of a path; stops at a path separator,
returns the extension (from the final dot) otherwise.  `acc` holds the
characters already passed, in original order. -/
def filepathExtAux : List Char → List Char → Option (List Char)
  | [], _ => none
  | c :: rest, acc =>
    if c = '/' then none
    else if c = '.' then some (c :: acc)
    else filepathExtAux rest (c :: acc)

/-- Go `filepath.Ext(path)`: the suffix beginning at the final dot in the
final slash-separated element of the path; empty if there is no dot. -/
def filepathExt (s : String) : String :=
  match filepathExtAux s.data.reverse [] with
  | none => ""
  | some l => String.mk l

/-- Characters strictly after the last occurrence of `c`, if `c` occurs:
Go's `base[strings.LastIndex(base, c)+1:]` guarded by `LastIndex ≥ 0`. -/
def afterLastChar (c : Char) : List Char → Option (List Char)
  | [] => none
  | x :: xs =>
    match afterLastChar c xs with
    | some r => some r
    | none => if x = c then some xs else none

/-- Go `strings.Contains(s, string(c))` for a one-character needle. -/
def stringContainsChar (s : String) (c : Char) : Bool := s.data.contains c

/-- Objects an `os.Stat` / `os.Open` of a path can find: nothing, a
directory, or a regular file with the given byte content. -/
inductive FsObj where
  | missing
  | directory
  | fileWith (content : List Nat)
deriving DecidableEq

/-- A request-time snapshot of the filesystem as seen through paths:
what `os.Stat` / `os.Open` finds at each path string. -/
def FsMap := String → FsObj

/-- One entry of the artifact directory tree walked by `filepath.Walk` /
`filepath.WalkDir`: a regular file, a readable subdirectory with its
children (in the lexical order Walk visits them), or a directory whose
read fails (also used for a missing walk root, where the walk callback is
invoked once with an error). -/
inductive FsEntry where
  | file (name : String)
  | errDir (name : String)
  | dir (name : String) (children : List FsEntry)

/-- `filepath.Walk` over the tree: visits every entry (directories
included, each with its `IsDir` flag) in depth-first lexical order, and
aborts with the error as soon as a directory read fails, because both
walk callbacks in the sources return a non-nil `err` unchanged. -/
def walkEntries (e : FsEntry) : Except Unit (List (String × Bool)) :=
  match e with
  | .file n => .ok [(n, false)]
  | .errDir _ => .error ()
  | .dir n es =>
    match walkList es with
    | .error u => .error u
    | .ok l => .ok ((n, true) :: l)
where walkList : List FsEntry → Except Unit (List (String × Bool))
  | [] => .ok []
  | e :: rest =>
    match walkEntries e, walkList rest with
    | .error u, _ => .error u
    | _, .error u => .error u
    | .ok a, .ok b => .ok (a ++ b)

/-- Models `filepath.Join(dir, name)` as concatenation.  `Join` also
applies `Clean`; no claim below depends on the cleaned spelling — both
the check and the download handlers build their path with this same
function and the result serves only as a lookup key into an `FsMap`. -/
def filepathJoin (dir name : String) : String :=
  if dir.data.getLast? = some '/' then dir ++ name else dir ++ "/" ++ name

/-- Lower-case hexadecimal digit, as `encoding/hex` emits. -/
def hexDigit (n : Nat) : Char :=
  if n < 10 then Char.ofNat (48 + n) else Char.ofNat (87 + n)

/-- Go `hex.EncodeToString`: two lower-case hex digits per byte. -/
def hexEncode (bytes : List Nat) : String :=
  String.mk (bytes.foldr (fun b acc => hexDigit (b / 16) :: hexDigit (b % 16) :: acc) [])

/-- The round constants of SHA-256 (FIPS 180-4), as used by
`crypto/sha256`. -/
def sha256K : List Nat :=
  [1116352408, 1899447441, 3049323471, 3921009573, 961987163, 1508970993,
   2453635748, 2870763221, 3624381080, 310598401, 607225278, 1426881987,
   1925078388, 2162078206, 2614888103, 3248222580, 3835390401, 4022224774,
   264347078, 604807628, 770255983, 1249150122, 1555081692, 1996064986,
   2554220882, 2821834349, 2952996808, 3210313671, 3336571891, 3584528711,
   113926993, 338241895, 666307205, 773529912, 1294757372, 1396182291,
   1695183700, 1986661051, 2177026350, 2456956037, 2730485921, 2820302411,
   3259730800, 3345764771, 3516065817, 3600352804, 4094571909, 275423344,
   430227734, 506948616, 659060556, 883997877, 958139571, 1322822218,
   1537002063, 1747873779, 1955562222, 2024104815, 2227730452, 2361852424,
   2428436474, 2756734187, 3204031479, 3329325298]

/-- The initial hash state of SHA-256. -/
def sha256H0 : List Nat :=
  [1779033703, 3144134277, 1013904242, 2773480762,
   1359893119, 2600822924, 528734635, 1541459225]

/-- 32-bit right rotation. -/
def rotr32 (n x : Nat) : Nat := ((x >>> n) ||| (x <<< (32 - n))) % 4294967296

/-- 32-bit modular addition. -/
def add32 (a b : Nat) : Nat := (a + b) % 4294967296

/-- Big-endian 32-bit words from a byte list (groups of four). -/
def bytesToWordsBE : List Nat → List Nat
  | b0 :: b1 :: b2 :: b3 :: rest => (((b0 * 256 + b1) * 256 + b2) * 256 + b3) :: bytesToWordsBE rest
  | _ => []

/-- SHA-256 padding: a 0x80 byte, zeros to 56 mod 64, then the bit length
as a big-endian 64-bit integer. -/
def sha256Pad (msg : List Nat) : List Nat :=
  let L := msg.length
  let z := (119 - L % 64) % 64
  let bitLen := (L * 8) % 18446744073709551616
  msg ++ [128] ++ List.replicate z 0 ++
    [(bitLen >>> 56) % 256, (bitLen >>> 48) % 256, (bitLen >>> 40) % 256, (bitLen >>> 32) % 256,
     (bitLen >>> 24) % 256, (bitLen >>> 16) % 256, (bitLen >>> 8) % 256, bitLen % 256]

/-- Splits a byte list into 64-byte blocks. -/
def chunk64 : List Nat → List (List Nat)
  | [] => []
  | x :: xs => (x :: xs).take 64 :: chunk64 ((x :: xs).drop 64)
termination_by l => l.length
decreasing_by simp [List.length_drop]; omega

/-- One message-schedule extension step: appends
`σ1(w[i-2]) + w[i-7] + σ0(w[i-15]) + w[i-16]` for `i` the current
length. -/
def sha256ExtendStep (ws : List Nat) : List Nat :=
  let n := ws.length
  let w16 := ws.getD (n - 16) 0
  let w15 := ws.getD (n - 15) 0
  let w7 := ws.getD (n - 7) 0
  let w2 := ws.getD (n - 2) 0
  let s0 := (rotr32 7 w15) ^^^ (rotr32 18 w15) ^^^ (w15 >>> 3)
  let s1 := (rotr32 17 w2) ^^^ (rotr32 19 w2) ^^^ (w2 >>> 10)
  ws ++ [add32 (add32 w16 s0) (add32 w7 s1)]

/-- The 64-word message schedule from a 16-word block. -/
def sha256MsgSchedule (w16 : List Nat) : List Nat := sha256ExtendStep^[48] w16

/-- One SHA-256 compression round on the working state `(a,…,h)` with the
round constant and schedule word paired in `kw`. -/
def sha256Round (st : List Nat) (kw : Nat × Nat) : List Nat :=
  let a := st.getD 0 0
  let b := st.getD 1 0
  let c := st.getD 2 0
  let d := st.getD 3 0
  let e := st.getD 4 0
  let f := st.getD 5 0
  let g := st.getD 6 0
  let h := st.getD 7 0
  let s1 := (rotr32 6 e) ^^^ (rotr32 11 e) ^^^ (rotr32 25 e)
  let ch := (e &&& f) ^^^ ((e ^^^ 4294967295) &&& g)
  let t1 := add32 (add32 h s1) (add32 ch (add32 kw.1 kw.2))
  let s0 := (rotr32 2 a) ^^^ (rotr32 13 a) ^^^ (rotr32 22 a)
  let mj := (a &&& b) ^^^ (a &&& c) ^^^ (b &&& c)
  let t2 := add32 s0 mj
  [add32 t1 t2, a, b, c, add32 d t1, e, f, g]

/-- Compression of one 64-byte block into the running hash state. -/
def sha256Compress (hs : List Nat) (block : List Nat) : List Nat :=
  let w := sha256MsgSchedule (bytesToWordsBE block)
  let final := (sha256K.zip w).foldl sha256Round hs
  List.zipWith add32 hs final

/-- SHA-256 of a byte list, producing the 32 digest bytes, as
`crypto/sha256` computes over a file's full content. -/
def sha256Bytes (msg : List Nat) : List Nat :=
  let hs := (chunk64 (sha256Pad msg)).foldl sha256Compress sha256H0
  hs.foldr (fun w acc => (w >>> 24) % 256 :: ((w >>> 16) % 256) :: ((w >>> 8) % 256) :: (w % 256) :: acc) []

namespace OtaServer

/-- The artifact directory constant of `src/otaserver/main.go`. -/
def otaFilesPath : String := "./ota_files/"

/-- `extractVersionFromFile` of `main.go`: strips the extension, splits the
base name on every underscore, and yields the second field only when the
split has exactly two fields; otherwise the empty string ("no match"). -/
def extractVersionFromFile (fileName : String) : String :=
  let baseName := stringsTrimSuffix fileName (filepathExt fileName)
  let parts := goSplit baseName '_'
  if parts.length = 2 then parts.getD 1 "" else ""

/-- `getAvailableVersions` of `main.go`: walks the OTA directory, and for
every visited entry that is not a directory appends the extracted version
when it is non-empty; a walk error is returned to the caller. -/
def getAvailableVersions (root : FsEntry) : Except Unit (List String) :=
  match walkEntries root with
  | .error u => .error u
  | .ok entries =>
    .ok (entries.foldl
      (fun versions p =>
        if !p.2 then
          let version := extractVersionFromFile p.1
          if version ≠ "" then versions ++ [version] else versions
        else versions) [])

/-- `sort.Strings`: sorts ascending under Go's lexicographic string order.
`sort.Strings` is an unstable in-place sort, but a linear order determines
the sorted list uniquely, so insertion sort is an exact model. -/
def sortStrings (l : List String) : List String :=
  List.insertionSort (fun a b => goStringLe a b = true) l

/-- The JSON payload of the check endpoints: `latest_version` always,
`download_url` and `checksum` with `omitempty`, hence `Option`. -/
structure VersionInfo where
  latestVersion : String
  downloadURL : Option String
  checkSum : Option String
deriving DecidableEq

/-- Outcome of a check handler: a 400, a 500, the out-of-range indexing
of `versions[len(versions)-1]` on an empty slice (a Go runtime panic), or
a 200 with the payload. -/
inductive CheckResult where
  | badRequest (msg : String)
  | serverError (msg : String)
  | emptyIndexPanic
  | ok (info : VersionInfo)
deriving DecidableEq

/-- `CalculateChecksum` of `main.go` on the current filesystem snapshot:
`os.Open` fails on a missing path; on a directory the open succeeds and
the `io.Copy` into the hash fails (`EISDIR`); on a regular file the
SHA-256 of the full content is returned hex-encoded. -/
def CalculateChecksum (fs : FsMap) (filePath : String) : Except String String :=
  match fs filePath with
  | .missing => .error "failed to open file"
  | .directory => .error "failed to copy file data to hash"
  | .fileWith content => .ok (hexEncode (sha256Bytes content))

/-- `checkForUpdate` of `main.go` (the `/check-update` handler): requires
`current_version`, scans the directory, sorts, takes the last element
unconditionally, recomputes the checksum of `plugin_<latest>.wasm`, and
answers with a download URL exactly when the latest version is strictly
greater (Go string `>`) than the client's. -/
def checkForUpdate (root : FsEntry) (fs : FsMap) (currentVersion : String) : CheckResult :=
  if currentVersion = "" then .badRequest "current_version is required"
  else
    match getAvailableVersions root with
    | .error _ => .serverError "Could not fetch available versions"
    | .ok versions =>
      match (sortStrings versions).getLast? with
      | none => .emptyIndexPanic
      | some latestVersion =>
        let fileName := "plugin_" ++ latestVersion ++ ".wasm"
        let filePath := filepathJoin otaFilesPath fileName
        match CalculateChecksum fs filePath with
        | .error _ => .serverError "Error calculating checksum"
        | .ok checksum =>
          if goStringLt currentVersion latestVersion then
            .ok ⟨latestVersion, some ("/download?version=" ++ latestVersion), some checksum⟩
          else
            .ok ⟨latestVersion, none, none⟩

/-- Outcome of a download handler: a 400, a 404, or the streaming of the
resolved path with a content-disposition header naming `fileName`. -/
inductive DownloadResult where
  | badRequest (msg : String)
  | notFound (msg : String)
  | serveFile (fileName : String) (filePath : String)
deriving DecidableEq

/-- `downloadNewVersion` of `main.go` (the `/download` handler): requires
`version`, builds `plugin_<version>.wasm`, answers 404 when the stat
reports not-exist, and otherwise hands the path to `c.File` — there is no
path-separator check and no directory check. -/
def downloadNewVersion (fs : FsMap) (requestedVersion : String) : DownloadResult :=
  if requestedVersion = "" then .badRequest "version is required"
  else
    let fileName := "plugin_" ++ requestedVersion ++ ".wasm"
    let filePath := filepathJoin otaFilesPath fileName
    match fs filePath with
    | .missing => .notFound "version not found"
    | _ => .serveFile fileName filePath

/-- `checkForUpdateBlinkOne` of `main.go`: as `checkForUpdate` but with no
checksum computation and the blink-one download route. -/
def checkForUpdateBlinkOne (root : FsEntry) (currentVersion : String) : CheckResult :=
  if currentVersion = "" then .badRequest "current_version is required"
  else
    match getAvailableVersions root with
    | .error _ => .serverError "Could not fetch available versions"
    | .ok versions =>
      match (sortStrings versions).getLast? with
      | none => .emptyIndexPanic
      | some latestVersion =>
        if goStringLt currentVersion latestVersion then
          .ok ⟨latestVersion, some ("/download-blink-one?version=" ++ latestVersion), none⟩
        else
          .ok ⟨latestVersion, none, none⟩

/-- `checkForUpdateBlinkFive` of `main.go`: as `checkForUpdate` but with
no checksum computation and the blink-five download route. -/
def checkForUpdateBlinkFive (root : FsEntry) (currentVersion : String) : CheckResult :=
  if currentVersion = "" then .badRequest "current_version is required"
  else
    match getAvailableVersions root with
    | .error _ => .serverError "Could not fetch available versions"
    | .ok versions =>
      match (sortStrings versions).getLast? with
      | none => .emptyIndexPanic
      | some latestVersion =>
        if goStringLt currentVersion latestVersion then
          .ok ⟨latestVersion, some ("/download-blink-five?version=" ++ latestVersion), none⟩
        else
          .ok ⟨latestVersion, none, none⟩

end OtaServer

example : OtaServer.extractVersionFromFile "one-second-delay_1.2.0.wasm" = "1.2.0" := by decide

example : OtaServer.extractVersionFromFile "my_app_1.2.0.wasm" = "" := by decide

example : OtaServer.getAvailableVersions
    (.dir "ota_files" [.dir "sub" [.file "app_9.9.9.wasm"]]) = .ok ["9.9.9"] := rfl

example : OtaServer.checkForUpdateBlinkOne
    (.dir "ota_files" [.file "one-second-delay_1.2.0.wasm"]) "1.0.0"
    = .ok ⟨"1.2.0", some "/download-blink-one?version=1.2.0", none⟩ := rfl

example : OtaServer.checkForUpdate
    (.dir "ota_files" [.file "one-second-delay_1.2.0.wasm"]) (fun _ => .missing) "1.0.0"
    = .serverError "Error calculating checksum" := rfl

example : OtaServer.checkForUpdate (.dir "ota_files" []) (fun _ => .missing) "1.0.0"
    = .emptyIndexPanic := rfl

namespace SemOta

/-- `strconv.ParseUint(s, 10, 64)`: succeeds exactly on non-empty all-digit
strings whose value fits in 64 bits. -/
def parseUint64 (s : String) : Option Nat :=
  if s = "" then none
  else if s.data.all Char.isDigit then
    let n := s.data.foldl (fun acc c => acc * 10 + (c.toNat - 48)) 0
    if n < 18446744073709551616 then some n else none
  else none

/-- `comparePrePart` of Masterminds semver v3: equal strings tie; an empty
(padding) part is below any non-empty part; a part that parses as an
unsigned 64-bit number is below any part that does not; two numbers
compare by value; two non-numbers compare by Go string order.  The
function never returns `eq` on distinct inputs. -/
def comparePrePart (s o : String) : Ordering :=
  if s = o then .eq
  else if s = "" then (if o ≠ "" then .lt else .gt)
  else if o = "" then (if s ≠ "" then .gt else .lt)
  else
    match parseUint64 o, parseUint64 s with
    | none, none => if goStringLt o s then .gt else .lt
    | none, some _ => .lt
    | some _, none => .gt
    | some oi, some si => if oi < si then .gt else .lt

/-- The `comparePrerelease` loop of Masterminds semver v3: compares the
dot-separated parts pointwise for `n` rounds, reading a missing part as
the empty string, and ties when the rounds are exhausted. -/
def comparePreCount : Nat → List String → List String → Ordering
  | 0, _, _ => .eq
  | n + 1, x, y =>
    match comparePrePart (x.headD "") (y.headD "") with
    | .eq => comparePreCount n x.tail y.tail
    | r => r

/-- `comparePrerelease` of Masterminds semver v3: splits both prerelease
strings on dots and runs the pointwise loop for `max` length rounds. -/
def comparePrerelease (v o : String) : Ordering :=
  let sparts := goSplit v '.'
  let oparts := goSplit o '.'
  comparePreCount (max sparts.length oparts.length) sparts oparts

/-- `compareSegment` of Masterminds semver v3 (numeric version segments). -/
def compareSegment (v o : Nat) : Ordering :=
  if v < o then .lt else if o < v then .gt else .eq

/-- A parsed `semver.Version`.  The build metadata and the original input
string are carried by the Go struct but ignored by `Compare`, `LessThan`
and `GreaterThan`, and by every use in `part_001`, so they are omitted
here.  An empty `pre` means a release version. -/
structure SemVer where
  major : Nat
  minor : Nat
  patch : Nat
  pre : String
deriving DecidableEq

/-- The prerelease step of `Version.Compare`: two releases tie, a release
is above any prerelease, and two prereleases compare by
`comparePrerelease`. -/
def comparePreTop (vpre opre : String) : Ordering :=
  if vpre = "" ∧ opre = "" then .eq
  else if vpre = "" then .gt
  else if opre = "" then .lt
  else comparePrerelease vpre opre

/-- `Version.Compare` of Masterminds semver v3: major, minor and patch
segments in order, then the prerelease step. -/
def semverCompare (v o : SemVer) : Ordering :=
  ((compareSegment v.major o.major).then
    ((compareSegment v.minor o.minor).then
      ((compareSegment v.patch o.patch).then (comparePreTop v.pre o.pre))))

/-- `Version.GreaterThan`: `Compare > 0`. -/
def semverGreaterThan (v o : SemVer) : Bool := semverCompare v o == .gt

/-- `Version.LessThan`: `Compare < 0`. -/
def semverLessThan (v o : SemVer) : Bool := semverCompare v o == .lt

/-- `Version.String()` without metadata: `major.minor.patch` and the
prerelease after a hyphen when present. -/
def semverVersionString (v : SemVer) : String :=
  toString v.major ++ "." ++ toString v.minor ++ "." ++ toString v.patch ++
    (if v.pre = "" then "" else "-" ++ v.pre)

/-- Character class of the semver regex for prerelease and metadata
identifiers: `[0-9A-Za-z-]`. -/
def isAllowedChar (c : Char) : Bool := c.isDigit || c.isAlpha || c = '-'

/-- Shape check the semver regex imposes on a prerelease or metadata
string: one or more dot-separated identifiers, each non-empty and over
the allowed character class. -/
def validDottedIdents (s : String) : Bool :=
  (goSplit s '.').all (fun p => decide (p ≠ "") && p.data.all isAllowedChar)

/-- `validatePrerelease` of Masterminds semver v3: an all-digit identifier
must not have a leading zero; any other identifier must be over the
allowed character class. -/
def validatePrerelease (p : String) : Bool :=
  (goSplit p '.').all (fun q =>
    if q.data.all Char.isDigit then
      decide (¬(q.data.length > 1 ∧ q.data.headD ' ' = '0'))
    else q.data.all isAllowedChar)

/-- `semver.NewVersion` of Masterminds v3: the lenient parser.  It matches
`v?MAJOR(.MINOR)?(.PATCH)?(-PRE)?(+META)?` anchored at both ends, parses
the numeric segments with `ParseUint(_, 10, 64)` (absent segments are 0),
and then validates the prerelease (leading-zero rule) and the metadata. -/
def semverNewVersion (s : String) : Option SemVer :=
  let cs0 : List Char := s.data
  let cs := if cs0.headD ' ' = 'v' then cs0.tail else cs0
  let majSplit := cs.span Char.isDigit
  let majd := majSplit.1
  let r1 := majSplit.2
  let minTaken := r1.headD ' ' = '.' ∧ (r1.tail.headD ' ').isDigit = true
  let minSplit := r1.tail.span Char.isDigit
  let mind := if minTaken then minSplit.1 else []
  let r2 := if minTaken then minSplit.2 else r1
  let patTaken := r2.headD ' ' = '.' ∧ (r2.tail.headD ' ').isDigit = true
  let patSplit := r2.tail.span Char.isDigit
  let patd := if patTaken then patSplit.1 else []
  let r3 := if patTaken then patSplit.2 else r2
  let hasPre := r3.headD ' ' = '-'
  let preSplit := r3.tail.span (fun c => c ≠ '+')
  let preStr := if hasPre then String.mk preSplit.1 else ""
  let r4 := if hasPre then preSplit.2 else r3
  let hasMeta := r4.headD ' ' = '+'
  let metaStr := if hasMeta then String.mk r4.tail else ""
  let r5 := if hasMeta then [] else r4
  if majd = [] then none
  else if r5 ≠ [] then none
  else if hasPre ∧ ¬(validDottedIdents preStr = true) then none
  else if hasMeta ∧ ¬(validDottedIdents metaStr = true) then none
  else if preStr ≠ "" ∧ ¬(validatePrerelease preStr = true) then none
  else
    match parseUint64 (String.mk majd),
        (if ¬minTaken then some 0 else parseUint64 (String.mk mind)),
        (if ¬patTaken then some 0 else parseUint64 (String.mk patd)) with
    | some mj, some mn, some pt => some ⟨mj, mn, pt, preStr⟩
    | _, _, _ => none

/-- One catalog entry built by `loadVersions`: the parsed version, the
originating filename, and the download locator
`<baseURL>/download?file=<filename>`. -/
structure SVersionInfo where
  version : SemVer
  fileName : String
  downloadURL : String
deriving DecidableEq

/-- The per-file body of `loadVersions` in `part_001`: skip names that do
not split into at least two underscore-separated fields, take the
substring of the extension-stripped base name after its last underscore,
and keep the file only when that substring parses as a semantic
version. -/
def loadVersionsEntry (baseURL : String) (filename : String) : Option SVersionInfo :=
  let parts := goSplit filename '_'
  if parts.length < 2 then none
  else
    let base := stringsTrimSuffix filename (filepathExt filename)
    match afterLastChar '_' base.data with
    | none => none
    | some verc =>
      match semverNewVersion (String.mk verc) with
      | none => none
      | some version => some ⟨version, filename, baseURL ++ "/download?file=" ++ filename⟩

/-- Responses of the `/check` handler of `part_001`: a 400, or a JSON
object with `update_available` true (latest version and download URL) or
false (latest version only). -/
inductive CheckResp where
  | badRequest (msg : String)
  | okUpdate (latestVersion : String) (downloadURL : String)
  | okNoUpdate (latestVersion : String)
deriving DecidableEq

/-- The selection loop of `handleCheck`: runs over the catalog in order
and keeps the last entry whose version is `GreaterThan` the client's. -/
def handleCheckLoop (versions : List SVersionInfo) (currentVersion : SemVer) :
    Option SVersionInfo :=
  versions.foldl
    (fun acc v => if semverGreaterThan v.version currentVersion then some v else acc) none

/-- `handleCheck` of `part_001` over the server's catalog state: requires
`current_version`, rejects unparseable input, and answers from the
selection loop; with no newer entry it reports the last catalog entry, or
`0.0.0` for an empty catalog. -/
def handleCheck (versions : List SVersionInfo) (currentVersionStr : String) : CheckResp :=
  if currentVersionStr = "" then .badRequest "Missing 'current_version' parameter"
  else
    match semverNewVersion currentVersionStr with
    | none => .badRequest "Invalid 'current_version' format"
    | some currentVersion =>
      match handleCheckLoop versions currentVersion with
      | some latestAvailable =>
        .okUpdate (semverVersionString latestAvailable.version) latestAvailable.downloadURL
      | none =>
        .okNoUpdate
          (match versions.getLast? with
           | none => "0.0.0"
           | some v => semverVersionString v.version)

/-- Responses of the `/download` handler of `part_001`. -/
inductive DownloadResp where
  | badRequest (msg : String)
  | notFound (msg : String)
  | serveFile (filePath : String)
deriving DecidableEq

/-- The artifact directory constant of `part_001`. -/
def filesDir : String := "./files"

/-- `handleDownload` of `part_001`: requires `file`, rejects any value
containing a path separator before the path is built, then stats the
joined path — 404 when missing, 400 when a directory, otherwise the file
is served. -/
def handleDownload (fs : FsMap) (file : String) : DownloadResp :=
  if file = "" then .badRequest "Missing 'file' parameter"
  else if stringContainsChar file '/' || stringContainsChar file '\\' then
    .badRequest "Invalid 'file' parameter"
  else
    let filePath := filepathJoin filesDir file
    match fs filePath with
    | .missing => .notFound "File not found"
    | .directory => .badRequest "Requested file is a directory"
    | .fileWith _ => .serveFile filePath

/-- Modelled from the spec, for the refinement claim on `handleCheck`:
"compare the catalog maximum against the current version and offer the
maximum" — the maximum of the ascending catalog being its last entry. -/
def specCheckOfferMax (versions : List SVersionInfo) (currentVersion : SemVer) :
    Option SVersionInfo :=
  match versions.getLast? with
  | none => none
  | some m => if semverGreaterThan m.version currentVersion then some m else none

/-- The ordering guarantee `loadVersions` leaves on the catalog: the
ascending sort by `sort.Slice` with `LessThan`, i.e. no later entry is
`LessThan` an earlier one. -/
def SortedBySemver (versions : List SVersionInfo) : Prop :=
  versions.Pairwise (fun a b => semverCompare b.version a.version ≠ .lt)

end SemOta

example : SemOta.semverNewVersion "1.2.0" = some ⟨1, 2, 0, ""⟩ := by decide

example : SemOta.semverNewVersion "v1.2" = some ⟨1, 2, 0, ""⟩ := by decide

example : SemOta.semverNewVersion "1.0.0-alpha.1" = some ⟨1, 0, 0, "alpha.1"⟩ := by decide

example : SemOta.semverNewVersion "1.0.0-01" = none := by decide

example : SemOta.semverNewVersion "abc" = none := by decide

example : SemOta.semverNewVersion "1.0.0-a..b" = none := by decide

example : SemOta.semverNewVersion "1.2.3+meta.7" = some ⟨1, 2, 3, ""⟩ := by decide

example : SemOta.semverNewVersion "" = none := by decide

example : SemOta.semverCompare ⟨1, 0, 0, ""⟩ ⟨2, 0, 0, ""⟩ = .lt := by decide

example : SemOta.semverCompare ⟨1, 0, 0, "alpha"⟩ ⟨1, 0, 0, ""⟩ = .lt := by decide

example : SemOta.semverCompare ⟨1, 0, 0, "alpha"⟩ ⟨1, 0, 0, "alpha.1"⟩ = .lt := by decide

example : SemOta.semverCompare ⟨1, 0, 0, "2"⟩ ⟨1, 0, 0, "10"⟩ = .lt := by decide

example : SemOta.semverCompare ⟨1, 0, 0, "10"⟩ ⟨1, 0, 0, "a"⟩ = .lt := by decide

example : SemOta.loadVersionsEntry "http://localhost:8080" "my_app_1.2.0.wasm"
    = some ⟨⟨1, 2, 0, ""⟩, "my_app_1.2.0.wasm",
        "http://localhost:8080/download?file=my_app_1.2.0.wasm"⟩ := by decide

example : SemOta.handleCheck [] "1.0.0" = .okNoUpdate "0.0.0" := by decide

theorem charListLt_iff (a b : List Char) : charListLt a b = true ↔ a < b := by
  induction a generalizing b with
  | nil =>
    cases b with
    | nil =>
      simp only [charListLt, Bool.false_eq_true, false_iff]
      intro h; cases h
    | cons y ys =>
      simp only [charListLt, true_iff]
      exact List.Lex.nil
  | cons x xs ih =>
    cases b with
    | nil =>
      simp only [charListLt, Bool.false_eq_true, false_iff]
      intro h; cases h
    | cons y ys =>
      simp only [charListLt]
      rcases lt_trichotomy x y with h | h | h
      · simp only [if_pos h, true_iff]
        exact List.Lex.rel h
      · subst h
        simp only [lt_self_iff_false, if_false, ite_false]
        rw [ih]
        constructor
        · exact fun h2 => List.Lex.cons h2
        · intro h2
          cases h2 with
          | cons h3 => exact h3
          | rel h3 => exact absurd h3 (lt_irrefl x)
      · rw [if_neg (asymm h), if_pos h]
        simp only [Bool.false_eq_true, false_iff]
        intro h2
        cases h2 with
        | cons h3 => exact absurd h (lt_irrefl x)
        | rel h3 => exact absurd (lt_trans h h3) (lt_irrefl y)

theorem charListLe_eq_not_lt (a b : List Char) : charListLe a b = !(charListLt b a) := by
  induction a generalizing b with
  | nil =>
    cases b with
    | nil => rfl
    | cons y ys => rfl
  | cons x xs ih =>
    cases b with
    | nil => rfl
    | cons y ys =>
      simp only [charListLe, charListLt]
      rcases lt_trichotomy x y with h | h | h
      · rw [if_pos h, if_neg (asymm h), if_pos h]
        rfl
      · subst h
        simp only [lt_self_iff_false, if_false, ite_false]
        exact ih ys
      · rw [if_neg (asymm h), if_pos h, if_pos h]
        rfl

theorem charListLe_iff (a b : List Char) : charListLe a b = true ↔ a ≤ b := by
  rw [charListLe_eq_not_lt, Bool.not_eq_true', ← Bool.not_eq_true (charListLt b a)]
  rw [charListLt_iff]
  exact not_lt

theorem goStringLt_iff (s o : String) : goStringLt s o = true ↔ s.data < o.data :=
  charListLt_iff _ _

theorem goStringLe_iff (s o : String) : goStringLe s o = true ↔ s.data ≤ o.data :=
  charListLe_iff _ _

theorem goStringLt_irrefl (s : String) : goStringLt s s = false := by
  rw [← Bool.not_eq_true, goStringLt_iff]
  exact lt_irrefl _

instance : IsTotal String (fun a b => goStringLe a b = true) :=
  ⟨fun a b => by rw [goStringLe_iff, goStringLe_iff]; exact le_total _ _⟩

instance : IsTrans String (fun a b => goStringLe a b = true) :=
  ⟨fun a b c h1 h2 => by
    rw [goStringLe_iff] at h1 h2 ⊢
    exact le_trans h1 h2⟩

theorem sortStrings_sorted (l : List String) :
    (OtaServer.sortStrings l).Pairwise (fun a b => goStringLe a b = true) :=
  List.sorted_insertionSort _ l

theorem sortStrings_perm (l : List String) : (OtaServer.sortStrings l).Perm l :=
  List.perm_insertionSort _ l

theorem pairwise_getLast {α : Type} {r : α → α → Prop} :
    ∀ {l : List α} {x L : α}, l.Pairwise r → x ∈ l → l.getLast? = some L → x = L ∨ r x L := by
  intro l
  induction l with
  | nil => intro x L _ hx _; cases hx
  | cons a t ih =>
    intro x L hp hx hL
    cases t with
    | nil =>
      simp only [List.getLast?_singleton, Option.some.injEq] at hL
      left
      rw [List.mem_singleton.mp hx, hL]
    | cons b t2 =>
      rw [List.getLast?_cons_cons] at hL
      rcases List.mem_cons.mp hx with h | h
      · subst h
        right
        have hmem : L ∈ b :: t2 := List.mem_of_mem_getLast? hL
        exact (List.pairwise_cons.mp hp).1 L hmem
      · exact ih (List.pairwise_cons.mp hp).2 h hL

theorem foldl_pick_last {α : Type} (p : α → Bool) :
    ∀ (l : List α) (acc : Option α),
      l.foldl (fun a v => if p v then some v else a) acc =
        ((l.filter p).getLast?).elim acc some := by
  intro l
  induction l with
  | nil => intro acc; rfl
  | cons v t ih =>
    intro acc
    rw [List.foldl_cons]
    by_cases hv : p v = true
    · rw [if_pos hv, ih (some v), List.filter_cons, if_pos hv]
      cases hfl : t.filter p with
      | nil => simp [hfl]
      | cons b t2 =>
        rw [List.getLast?_cons_cons]
        cases hgl : (b :: t2).getLast? with
        | none => exact absurd (List.getLast?_eq_none_iff.mp hgl) (by simp)
        | some x => rfl
    · rw [if_neg hv, ih acc, List.filter_cons, if_neg hv]

theorem splitOnChar_no_sep (c : Char) : ∀ (l : List Char), c ∉ l → splitOnChar c l = [l] := by
  intro l
  induction l with
  | nil => intro _; rfl
  | cons x xs ih =>
    intro h
    have hx : ¬x = c := fun hc => h (by rw [hc]; exact List.mem_cons_self _ _)
    have hxs : c ∉ xs := fun hc => h (List.mem_cons_of_mem _ hc)
    simp only [splitOnChar, if_neg hx, ih hxs]

theorem splitOnChar_append_sep (c : Char) :
    ∀ (xs ys : List Char), c ∉ xs →
      splitOnChar c (xs ++ c :: ys) = xs :: splitOnChar c ys := by
  intro xs
  induction xs with
  | nil =>
    intro ys _
    simp [splitOnChar]
  | cons x xs2 ih =>
    intro ys h
    have hx : ¬x = c := fun hc => h (by rw [hc]; exact List.mem_cons_self _ _)
    have hxs : c ∉ xs2 := fun hc => h (List.mem_cons_of_mem _ hc)
    simp only [List.cons_append, splitOnChar, if_neg hx]
    show (match splitOnChar c (xs2 ++ c :: ys) with
      | [] => [[x]]
      | h :: t => (x :: h) :: t) = (x :: xs2) :: splitOnChar c ys
    rw [ih ys hxs]

theorem splitOnChar_parts_no_sep (c : Char) :
    ∀ (l : List Char), ∀ p ∈ splitOnChar c l, c ∉ p := by
  intro l
  induction l with
  | nil =>
    intro p hp
    rw [List.mem_singleton.mp hp]
    exact List.not_mem_nil c
  | cons x xs ih =>
    intro p hp
    simp only [splitOnChar] at hp
    by_cases hx : x = c
    · rw [if_pos hx] at hp
      rcases List.mem_cons.mp hp with h | h
      · rw [h]; exact List.not_mem_nil c
      · exact ih p h
    · rw [if_neg hx] at hp
      cases hr : splitOnChar c xs with
      | nil =>
        rw [hr] at hp
        rw [List.mem_singleton.mp hp]
        intro hc
        rcases List.mem_singleton.mp hc with h
        exact hx h.symm
      | cons q qs =>
        rw [hr] at hp
        rcases List.mem_cons.mp hp with h | h
        · rw [h]
          intro hc
          rcases List.mem_cons.mp hc with h2 | h2
          · exact hx h2.symm
          · exact ih q (by rw [hr]; exact List.mem_cons_self _ _) h2
        · exact ih p (by rw [hr]; exact List.mem_cons_of_mem _ h)

theorem filepathExt_wasm (x : String) : filepathExt (x ++ ".wasm") = ".wasm" := by
  unfold filepathExt
  have hdata : (x ++ ".wasm").data.reverse = 'm' :: 's' :: 'a' :: 'w' :: '.' :: x.data.reverse := by
    rw [String.data_append, List.reverse_append]
    rfl
  rw [hdata]
  rfl

theorem trimSuffix_wasm (x : String) : stringsTrimSuffix (x ++ ".wasm") ".wasm" = x := by
  unfold stringsTrimSuffix
  have hsuf : (".wasm").data.isSuffixOf (x ++ ".wasm").data = true :=
    List.isSuffixOf_iff_suffix.mpr ⟨x.data, (String.data_append x ".wasm").symm⟩
  rw [if_pos hsuf, String.data_append]
  have hlen : (x.data ++ (".wasm").data).length - (".wasm").data.length = x.data.length := by
    simp [List.length_append]
  rw [hlen, List.take_left]

theorem goSplit_sep_free (s : String) (c : Char) (h : c ∉ s.data) : goSplit s c = [s] := by
  unfold goSplit
  rw [splitOnChar_no_sep c s.data h]
  rfl

theorem goSplit_parts_no_sep (s : String) (c : Char) :
    ∀ p ∈ goSplit s c, c ∉ p.data := by
  intro p hp
  unfold goSplit at hp
  rcases List.mem_map.mp hp with ⟨q, hq, hpq⟩
  rw [← hpq]
  exact splitOnChar_parts_no_sep c s.data q hq

theorem extractVersion_no_underscore (name : String) :
    ('_' : Char) ∉ (OtaServer.extractVersionFromFile name).data := by
  unfold OtaServer.extractVersionFromFile
  by_cases hl : (goSplit (stringsTrimSuffix name (filepathExt name)) '_').length = 2
  · rw [if_pos hl]
    rcases List.length_eq_two.mp hl with ⟨a, b, hab⟩
    rw [hab]
    have hb : b ∈ goSplit (stringsTrimSuffix name (filepathExt name)) '_' := by
      rw [hab]; exact List.mem_cons_of_mem _ (List.mem_cons_self _ _)
    exact goSplit_parts_no_sep _ _ b hb
  · rw [if_neg hl]
    exact List.not_mem_nil _

theorem goSplit_plugin (L : String) (h : ('_' : Char) ∉ L.data) :
    goSplit ("plugin_" ++ L) '_' = ["plugin", L] := by
  unfold goSplit
  have hdata : ("plugin_" ++ L).data = "plugin".data ++ '_' :: L.data := by
    rw [String.data_append]
    rfl
  rw [hdata, splitOnChar_append_sep '_' "plugin".data L.data (by decide),
    splitOnChar_no_sep '_' L.data h]
  rfl

theorem extract_plugin_roundtrip (L : String) (h : ('_' : Char) ∉ L.data) :
    OtaServer.extractVersionFromFile ("plugin_" ++ L ++ ".wasm") = L := by
  unfold OtaServer.extractVersionFromFile
  rw [filepathExt_wasm, trimSuffix_wasm]
  simp [goSplit_plugin L h]

theorem catalogFold_mem :
    ∀ (entries : List (String × Bool)) (acc : List String) (t : String),
      t ∈ entries.foldl
        (fun versions p =>
          if !p.2 then
            let version := OtaServer.extractVersionFromFile p.1
            if version ≠ "" then versions ++ [version] else versions
          else versions) acc →
      t ∈ acc ∨ (t ≠ "" ∧ ∃ name, t = OtaServer.extractVersionFromFile name) := by
  intro entries
  induction entries with
  | nil => intro acc t ht; exact Or.inl ht
  | cons e rest ih =>
    intro acc t ht
    rw [List.foldl_cons] at ht
    rcases ih _ t ht with hstep | hr
    · by_cases he : (!e.2) = true
      · rw [if_pos he] at hstep
        by_cases hv : OtaServer.extractVersionFromFile e.1 ≠ ""
        · simp only [if_pos hv] at hstep
          rcases List.mem_append.mp hstep with ha | hb
          · exact Or.inl ha
          · right
            rw [List.mem_singleton.mp hb]
            exact ⟨hv, e.1, rfl⟩
        · simp only [if_neg hv] at hstep
          exact Or.inl hstep
      · rw [if_neg he] at hstep
        exact Or.inl hstep
    · exact Or.inr hr

theorem getAvailableVersions_mem (root : FsEntry) (vs : List String) (t : String)
    (h : OtaServer.getAvailableVersions root = .ok vs) (ht : t ∈ vs) :
    t ≠ "" ∧ ('_' : Char) ∉ t.data := by
  unfold OtaServer.getAvailableVersions at h
  cases hw : walkEntries root with
  | error u => rw [hw] at h; cases h
  | ok entries =>
    rw [hw] at h
    have hv : entries.foldl
        (fun versions p =>
          if !p.2 then
            let version := OtaServer.extractVersionFromFile p.1
            if version ≠ "" then versions ++ [version] else versions
          else versions) [] = vs := by
      injection h
    rw [← hv] at ht
    rcases catalogFold_mem entries [] t ht with hacc | ⟨hne, name, hname⟩
    · cases hacc
    · refine ⟨hne, ?_⟩
      rw [hname]
      exact extractVersion_no_underscore name

theorem checkForUpdate_unfold (root : FsEntry) (fs : FsMap) (cur : String)
    (vs : List String) (L : String)
    (hcur : cur ≠ "")
    (hvs : OtaServer.getAvailableVersions root = .ok vs)
    (hL : (OtaServer.sortStrings vs).getLast? = some L) :
    OtaServer.checkForUpdate root fs cur =
      match OtaServer.CalculateChecksum fs
          (filepathJoin OtaServer.otaFilesPath ("plugin_" ++ L ++ ".wasm")) with
      | .error _ => .serverError "Error calculating checksum"
      | .ok checksum =>
        if goStringLt cur L then
          .ok ⟨L, some ("/download?version=" ++ L), some checksum⟩
        else .ok ⟨L, none, none⟩ := by
  simp only [OtaServer.checkForUpdate, if_neg hcur, hvs, hL]

theorem checkForUpdateBlinkOne_unfold (root : FsEntry) (cur : String)
    (vs : List String) (L : String)
    (hcur : cur ≠ "")
    (hvs : OtaServer.getAvailableVersions root = .ok vs)
    (hL : (OtaServer.sortStrings vs).getLast? = some L) :
    OtaServer.checkForUpdateBlinkOne root cur =
      if goStringLt cur L then
        .ok ⟨L, some ("/download-blink-one?version=" ++ L), none⟩
      else .ok ⟨L, none, none⟩ := by
  simp only [OtaServer.checkForUpdateBlinkOne, if_neg hcur, hvs, hL]

theorem checkForUpdateBlinkFive_unfold (root : FsEntry) (cur : String)
    (vs : List String) (L : String)
    (hcur : cur ≠ "")
    (hvs : OtaServer.getAvailableVersions root = .ok vs)
    (hL : (OtaServer.sortStrings vs).getLast? = some L) :
    OtaServer.checkForUpdateBlinkFive root cur =
      if goStringLt cur L then
        .ok ⟨L, some ("/download-blink-five?version=" ++ L), none⟩
      else .ok ⟨L, none, none⟩ := by
  simp only [OtaServer.checkForUpdateBlinkFive, if_neg hcur, hvs, hL]

/-- Claim C1: with an empty version catalog the update checker should
answer `latestVersion = "0.0.0"` and no update without raising.  The
semver variant's `handleCheck` does exactly that, but the gin variant's
`checkForUpdate` evaluates `versions[len(versions)-1]` on the empty slice
and panics, so the claim holds for `part_001` and is a bug in
`main.go`. -/
theorem claim1_empty_catalog (fs : FsMap) (cur : String) (hcur : cur ≠ "") :
    OtaServer.checkForUpdate (.dir "ota_files" []) fs cur = .emptyIndexPanic ∧
    (∀ s v, SemOta.semverNewVersion s = some v →
      SemOta.handleCheck [] s = .okNoUpdate "0.0.0") := by
  constructor
  · have h1 : OtaServer.getAvailableVersions (.dir "ota_files" []) = .ok [] := rfl
    simp only [OtaServer.checkForUpdate, if_neg hcur, h1]
    rfl
  · intro s v hv
    have hs : s ≠ "" := by
      intro he
      have h0 : SemOta.semverNewVersion "" = none := rfl
      rw [he, h0] at hv
      cases hv
    simp only [SemOta.handleCheck, if_neg hs, hv]
    rfl

/-- Concrete instance of `claim1_empty_catalog`. -/
theorem claim1_empty_catalog_witness :
    OtaServer.checkForUpdate (.dir "ota_files" []) (fun _ => FsObj.missing) "1.0.0"
      = .emptyIndexPanic ∧
    SemOta.handleCheck [] "1.0.0" = .okNoUpdate "0.0.0" :=
  ⟨(claim1_empty_catalog (fun _ => FsObj.missing) "1.0.0" (by decide)).1,
   (claim1_empty_catalog (fun _ => FsObj.missing) "1.0.0" (by decide)).2
     "1.0.0" ⟨1, 0, 0, ""⟩ (by decide)⟩

/-- Claim C3: the version extractor should return the token after the
LAST underscore for every `family_token.ext` filename.  The semver
variant's extraction does; the gin variant's `extractVersionFromFile`
instead requires exactly two underscore-separated fields and returns "no
match" on `my_app_1.2.0.wasm`, diverging from the claim. -/
theorem claim3_extractor_divergence :
    OtaServer.extractVersionFromFile "my_app_1.2.0.wasm" = "" ∧
    OtaServer.extractVersionFromFile "five-second-delay_1.2.0.wasm" = "1.2.0" ∧
    SemOta.loadVersionsEntry "http://localhost:8080" "my_app_1.2.0.wasm" =
      some ⟨⟨1, 2, 0, ""⟩, "my_app_1.2.0.wasm",
        "http://localhost:8080/download?file=my_app_1.2.0.wasm"⟩ :=
  ⟨by decide, by decide, by decide⟩

/-- Claim C2: on a non-empty catalog with a readable latest artifact, the
gin check handler reports an update, with a locator for the latest entry,
exactly when the catalog maximum is strictly greater (Go string order)
than the client's version; otherwise — in particular on a tie — it
reports no update while still returning the true maximum as
`latest_version`. -/
theorem claim2_update_iff_max_greater (root : FsEntry) (fs : FsMap) (cur : String)
    (vs : List String) (L : String) (c : List Nat)
    (hcur : cur ≠ "")
    (hvs : OtaServer.getAvailableVersions root = .ok vs)
    (hL : (OtaServer.sortStrings vs).getLast? = some L)
    (hfile : fs (filepathJoin OtaServer.otaFilesPath ("plugin_" ++ L ++ ".wasm"))
      = .fileWith c) :
    (L ∈ vs ∧ ∀ v ∈ vs, goStringLe v L = true) ∧
    (goStringLt cur L = true →
      OtaServer.checkForUpdate root fs cur =
        .ok ⟨L, some ("/download?version=" ++ L), some (hexEncode (sha256Bytes c))⟩) ∧
    (goStringLt cur L = false →
      OtaServer.checkForUpdate root fs cur = .ok ⟨L, none, none⟩) ∧
    (cur = L → OtaServer.checkForUpdate root fs cur = .ok ⟨L, none, none⟩) := by
  have hmax : ∀ v ∈ vs, goStringLe v L = true := by
    intro v hv
    have hv2 : v ∈ OtaServer.sortStrings vs := (sortStrings_perm vs).mem_iff.mpr hv
    rcases pairwise_getLast (sortStrings_sorted vs) hv2 hL with he | hr
    · rw [he]
      exact (goStringLe_iff L L).mpr (le_refl _)
    · exact hr
  have hLin : L ∈ vs := (sortStrings_perm vs).mem_iff.mp (List.mem_of_mem_getLast? hL)
  have hunf := checkForUpdate_unfold root fs cur vs L hcur hvs hL
  simp only [OtaServer.CalculateChecksum, hfile] at hunf
  refine ⟨⟨hLin, hmax⟩, ?_, ?_, ?_⟩
  · intro hlt
    rw [hunf, if_pos hlt]
  · intro hlt
    rw [hunf]
    simp [hlt]
  · intro he
    have hf : goStringLt cur L = false := by
      rw [he]
      exact goStringLt_irrefl L
    rw [hunf]
    simp [hf]

/-- Concrete instance of `claim2_update_iff_max_greater`. -/
theorem claim2_update_iff_max_greater_witness :
    OtaServer.checkForUpdate (.dir "ota_files" [.file "plugin_1.2.0.wasm"])
      (fun p => if p = filepathJoin OtaServer.otaFilesPath "plugin_1.2.0.wasm"
        then FsObj.fileWith [1, 2, 3] else FsObj.missing) "1.0.0"
      = .ok ⟨"1.2.0", some ("/download?version=" ++ "1.2.0"),
          some (hexEncode (sha256Bytes [1, 2, 3]))⟩ :=
  (claim2_update_iff_max_greater (.dir "ota_files" [.file "plugin_1.2.0.wasm"])
    (fun p => if p = filepathJoin OtaServer.otaFilesPath "plugin_1.2.0.wasm"
      then FsObj.fileWith [1, 2, 3] else FsObj.missing)
    "1.0.0" ["1.2.0"] "1.2.0" [1, 2, 3]
    (by decide) rfl rfl (by decide)).2.1 (by decide)

/-- Claim C7: the gin check handler recomputes the SHA-256 of the resolved
latest artifact from its current content on every request — the checksum
field it returns is the hex encoding of that digest — and any failure of
the computation (missing path, unreadable directory) fails the whole
request with a 500. -/
theorem claim7_checksum_recomputed (root : FsEntry) (fs : FsMap) (cur : String)
    (vs : List String) (L : String)
    (hcur : cur ≠ "")
    (hvs : OtaServer.getAvailableVersions root = .ok vs)
    (hL : (OtaServer.sortStrings vs).getLast? = some L) :
    (∀ content,
      fs (filepathJoin OtaServer.otaFilesPath ("plugin_" ++ L ++ ".wasm"))
          = .fileWith content →
      OtaServer.checkForUpdate root fs cur =
        if goStringLt cur L then
          .ok ⟨L, some ("/download?version=" ++ L),
            some (hexEncode (sha256Bytes content))⟩
        else .ok ⟨L, none, none⟩) ∧
    (fs (filepathJoin OtaServer.otaFilesPath ("plugin_" ++ L ++ ".wasm")) = .missing ∨
      fs (filepathJoin OtaServer.otaFilesPath ("plugin_" ++ L ++ ".wasm")) = .directory →
      OtaServer.checkForUpdate root fs cur
        = .serverError "Error calculating checksum") := by
  have hunf := checkForUpdate_unfold root fs cur vs L hcur hvs hL
  constructor
  · intro content hfile
    simp only [OtaServer.CalculateChecksum, hfile] at hunf
    exact hunf
  · intro hbad
    rcases hbad with hfile | hfile
    · simp only [OtaServer.CalculateChecksum, hfile] at hunf
      exact hunf
    · simp only [OtaServer.CalculateChecksum, hfile] at hunf
      exact hunf

/-- Concrete instance of `claim7_checksum_recomputed`: the artifact named
by the catalog token is not present, so the whole check fails with a
500. -/
theorem claim7_checksum_recomputed_witness :
    OtaServer.checkForUpdate (.dir "ota_files" [.file "plugin_1.2.0.wasm"])
      (fun _ => FsObj.missing) "1.0.0" = .serverError "Error calculating checksum" :=
  (claim7_checksum_recomputed (.dir "ota_files" [.file "plugin_1.2.0.wasm"])
    (fun _ => FsObj.missing) "1.0.0" ["1.2.0"] "1.2.0"
    (by decide) rfl rfl).2 (Or.inl rfl)

/-- Claim C8: whenever the gin check handler answers 200 with a download
locator, that locator carries exactly the reported `latest_version`, the
artifact `plugin_<latest>.wasm` exists in the store (its checksum was just
computed), and the download handler on that version serves that very
file, whose name embeds exactly the reported version. -/
theorem claim8_check_download_roundtrip (root : FsEntry) (fs : FsMap) (cur : String)
    (info : OtaServer.VersionInfo)
    (hok : OtaServer.checkForUpdate root fs cur = .ok info)
    (hurl : info.downloadURL.isSome = true) :
    info.downloadURL = some ("/download?version=" ++ info.latestVersion) ∧
    (∃ content,
      fs (filepathJoin OtaServer.otaFilesPath
        ("plugin_" ++ info.latestVersion ++ ".wasm")) = .fileWith content) ∧
    OtaServer.downloadNewVersion fs info.latestVersion =
      .serveFile ("plugin_" ++ info.latestVersion ++ ".wasm")
        (filepathJoin OtaServer.otaFilesPath
          ("plugin_" ++ info.latestVersion ++ ".wasm")) ∧
    OtaServer.extractVersionFromFile ("plugin_" ++ info.latestVersion ++ ".wasm")
      = info.latestVersion := by
  by_cases hcur : cur = ""
  · rw [OtaServer.checkForUpdate, if_pos hcur] at hok
    cases hok
  cases hvs : OtaServer.getAvailableVersions root with
  | error u =>
    rw [OtaServer.checkForUpdate, if_neg hcur] at hok
    rw [hvs] at hok
    cases hok
  | ok vs =>
    cases hL : (OtaServer.sortStrings vs).getLast? with
    | none =>
      rw [OtaServer.checkForUpdate, if_neg hcur] at hok
      simp only [hvs, hL] at hok
      cases hok
    | some L =>
      rw [checkForUpdate_unfold root fs cur vs L hcur hvs hL] at hok
      have hLfacts := getAvailableVersions_mem root vs L hvs
        ((sortStrings_perm vs).mem_iff.mp (List.mem_of_mem_getLast? hL))
      cases hfs : fs (filepathJoin OtaServer.otaFilesPath ("plugin_" ++ L ++ ".wasm")) with
      | missing =>
        simp only [OtaServer.CalculateChecksum, hfs] at hok
        cases hok
      | directory =>
        simp only [OtaServer.CalculateChecksum, hfs] at hok
        cases hok
      | fileWith content =>
        simp only [OtaServer.CalculateChecksum, hfs] at hok
        by_cases hlt : goStringLt cur L = true
        · rw [if_pos hlt] at hok
          have hinfo : info =
              ⟨L, some ("/download?version=" ++ L),
                some (hexEncode (sha256Bytes content))⟩ := by
            injection hok with h2
            exact h2.symm
          subst hinfo
          refine ⟨rfl, ⟨content, hfs⟩, ?_, extract_plugin_roundtrip L hLfacts.2⟩
          simp only [OtaServer.downloadNewVersion, if_neg hLfacts.1, hfs]
        · rw [if_neg hlt] at hok
          have hinfo : info = ⟨L, none, none⟩ := by
            injection hok with h2
            exact h2.symm
          rw [hinfo] at hurl
          cases hurl

/-- Concrete instance of `claim8_check_download_roundtrip`. -/
theorem claim8_check_download_roundtrip_witness :
    (fun fs : FsMap =>
      OtaServer.downloadNewVersion fs "1.2.0" =
        .serveFile ("plugin_" ++ "1.2.0" ++ ".wasm")
          (filepathJoin OtaServer.otaFilesPath ("plugin_" ++ "1.2.0" ++ ".wasm")))
      (fun p => if p = filepathJoin OtaServer.otaFilesPath "plugin_1.2.0.wasm"
        then FsObj.fileWith [7] else FsObj.missing) :=
  (claim8_check_download_roundtrip (.dir "ota_files" [.file "plugin_1.2.0.wasm"])
    (fun p => if p = filepathJoin OtaServer.otaFilesPath "plugin_1.2.0.wasm"
      then FsObj.fileWith [7] else FsObj.missing)
    "1.0.0"
    ⟨"1.2.0", some ("/download?version=" ++ "1.2.0"),
      some (hexEncode (sha256Bytes [7]))⟩
    rfl rfl).2.2.1

/-- Claim C9 counterexample: with only a blink-family artifact on disk,
the three check endpoints do NOT all return a `latest_version`: the
default handler's checksum step fails on the missing
`plugin_1.2.0.wasm` and answers 500, while both blink handlers answer 200
with `latest_version = "1.2.0"`, so the three differ in more than the
download URL path. -/
theorem claim9_same_latest_cex :
    OtaServer.checkForUpdate
      (.dir "ota_files" [.file "one-second-delay_1.2.0.wasm"])
      (fun _ => FsObj.missing) "1.0.0" = .serverError "Error calculating checksum" ∧
    OtaServer.checkForUpdateBlinkOne
      (.dir "ota_files" [.file "one-second-delay_1.2.0.wasm"]) "1.0.0"
      = .ok ⟨"1.2.0", some "/download-blink-one?version=1.2.0", none⟩ ∧
    OtaServer.checkForUpdateBlinkFive
      (.dir "ota_files" [.file "one-second-delay_1.2.0.wasm"]) "1.0.0"
      = .ok ⟨"1.2.0", some "/download-blink-five?version=1.2.0", none⟩ :=
  ⟨rfl, rfl, rfl⟩

/-- Claim C9 as amended: all three check endpoints build their catalog
from the same family-blind scan and take the same maximum `L`; the two
blink handlers return identical results differing only in the download
URL path, and the default handler agrees on `latest_version` whenever its
extra checksum step succeeds, failing the request with a 500 when it does
not. -/
theorem claim9_same_scan_same_latest (root : FsEntry) (fs : FsMap) (cur : String)
    (vs : List String) (L : String)
    (hcur : cur ≠ "")
    (hvs : OtaServer.getAvailableVersions root = .ok vs)
    (hL : (OtaServer.sortStrings vs).getLast? = some L) :
    OtaServer.checkForUpdateBlinkOne root cur =
      (if goStringLt cur L then
        .ok ⟨L, some ("/download-blink-one?version=" ++ L), none⟩
      else .ok ⟨L, none, none⟩) ∧
    OtaServer.checkForUpdateBlinkFive root cur =
      (if goStringLt cur L then
        .ok ⟨L, some ("/download-blink-five?version=" ++ L), none⟩
      else .ok ⟨L, none, none⟩) ∧
    (∀ content,
      fs (filepathJoin OtaServer.otaFilesPath ("plugin_" ++ L ++ ".wasm"))
          = .fileWith content →
      OtaServer.checkForUpdate root fs cur =
        (if goStringLt cur L then
          .ok ⟨L, some ("/download?version=" ++ L),
            some (hexEncode (sha256Bytes content))⟩
        else .ok ⟨L, none, none⟩)) ∧
    ((fs (filepathJoin OtaServer.otaFilesPath ("plugin_" ++ L ++ ".wasm")) = .missing ∨
      fs (filepathJoin OtaServer.otaFilesPath ("plugin_" ++ L ++ ".wasm")) = .directory) →
      OtaServer.checkForUpdate root fs cur
        = .serverError "Error calculating checksum") := by
  refine ⟨checkForUpdateBlinkOne_unfold root cur vs L hcur hvs hL,
    checkForUpdateBlinkFive_unfold root cur vs L hcur hvs hL, ?_, ?_⟩
  · intro content hfile
    have hunf := checkForUpdate_unfold root fs cur vs L hcur hvs hL
    simp only [OtaServer.CalculateChecksum, hfile] at hunf
    exact hunf
  · intro hbad
    have hunf := checkForUpdate_unfold root fs cur vs L hcur hvs hL
    rcases hbad with hfile | hfile
    · simp only [OtaServer.CalculateChecksum, hfile] at hunf
      exact hunf
    · simp only [OtaServer.CalculateChecksum, hfile] at hunf
      exact hunf

/-- Concrete instance of `claim9_same_scan_same_latest`. -/
theorem claim9_same_scan_same_latest_witness :
    OtaServer.checkForUpdateBlinkOne
      (.dir "ota_files" [.file "one-second-delay_1.2.0.wasm", .file "plugin_1.1.0.wasm"])
      "1.0.0"
      = (if goStringLt "1.0.0" "1.2.0" then
          .ok ⟨"1.2.0", some ("/download-blink-one?version=" ++ "1.2.0"), none⟩
        else .ok ⟨"1.2.0", none, none⟩) :=
  (claim9_same_scan_same_latest
    (.dir "ota_files" [.file "one-second-delay_1.2.0.wasm", .file "plugin_1.1.0.wasm"])
    (fun _ => FsObj.missing) "1.0.0" ["1.2.0", "1.1.0"] "1.2.0"
    (by decide) rfl rfl).1

/-- Claim C4 counterexample: the gin download handler performs no
path-separator check — a traversal-shaped `version` value reaches the
filesystem stat (404 from the stat on an empty store) and is served
outright when the joined path resolves to a file. -/
theorem claim4_no_separator_check_cex :
    OtaServer.downloadNewVersion (fun _ => FsObj.missing) "../../etc/passwd"
      = .notFound "version not found" ∧
    OtaServer.downloadNewVersion
      (fun p => if p = filepathJoin OtaServer.otaFilesPath "plugin_../../etc/passwd.wasm"
        then FsObj.fileWith [7] else FsObj.missing)
      "../../etc/passwd"
      = .serveFile "plugin_../../etc/passwd.wasm"
        (filepathJoin OtaServer.otaFilesPath "plugin_../../etc/passwd.wasm") :=
  ⟨rfl, rfl⟩

/-- Claim C4 as amended: the semver variant's download handler rejects
any `file` value containing a path separator with a 400, independently of
— and hence before — any filesystem access; the gin variant has no such
check and proceeds to the stat. -/
theorem claim4_separator_rejected (fs : FsMap) (file : String)
    (hsep : (stringContainsChar file '/' || stringContainsChar file '\\') = true) :
    SemOta.handleDownload fs file = .badRequest "Invalid 'file' parameter" := by
  have hne : file ≠ "" := by
    intro he
    rw [he] at hsep
    exact absurd hsep (by decide)
  simp only [SemOta.handleDownload, if_neg hne, if_pos hsep]

/-- Concrete instance of `claim4_separator_rejected`: the traversal probe
is rejected even on a filesystem that would expose a file there. -/
theorem claim4_separator_rejected_witness :
    SemOta.handleDownload (fun _ => FsObj.fileWith [7]) "../../etc/passwd"
      = .badRequest "Invalid 'file' parameter" :=
  claim4_separator_rejected (fun _ => FsObj.fileWith [7]) "../../etc/passwd" (by decide)

/-- Claim C5 counterexample: the gin download handler has no directory
check — when the resolved path is a directory the stat does not report
not-exist, so the handler falls through and hands the directory to the
file-serving call instead of answering 400. -/
theorem claim5_directory_served_cex :
    OtaServer.downloadNewVersion
      (fun p => if p = filepathJoin OtaServer.otaFilesPath "plugin_1.2.0.wasm"
        then FsObj.directory else FsObj.missing) "1.2.0"
      = .serveFile "plugin_1.2.0.wasm"
        (filepathJoin OtaServer.otaFilesPath "plugin_1.2.0.wasm") := rfl

/-- Claim C5 as amended: the semver variant's download handler implements
the full status contract — 400 for a missing or separator-containing
parameter, 404 when the resolved path does not exist, 400 when it is a
directory, and a file stream only for an existing regular file. -/
theorem claim5_download_status_cases (fs : FsMap) (file : String) :
    (file = "" → SemOta.handleDownload fs file = .badRequest "Missing 'file' parameter") ∧
    (file ≠ "" → (stringContainsChar file '/' || stringContainsChar file '\\') = true →
      SemOta.handleDownload fs file = .badRequest "Invalid 'file' parameter") ∧
    (file ≠ "" → (stringContainsChar file '/' || stringContainsChar file '\\') = false →
      (fs (filepathJoin SemOta.filesDir file) = .missing →
        SemOta.handleDownload fs file = .notFound "File not found") ∧
      (fs (filepathJoin SemOta.filesDir file) = .directory →
        SemOta.handleDownload fs file = .badRequest "Requested file is a directory") ∧
      (∀ content, fs (filepathJoin SemOta.filesDir file) = .fileWith content →
        SemOta.handleDownload fs file
          = .serveFile (filepathJoin SemOta.filesDir file))) := by
  refine ⟨?_, ?_, ?_⟩
  · intro he
    simp only [SemOta.handleDownload, if_pos he]
  · intro hne hsep
    simp only [SemOta.handleDownload, if_neg hne, if_pos hsep]
  · intro hne hsep
    have hsep2 : ¬((stringContainsChar file '/' || stringContainsChar file '\\') = true) := by
      rw [hsep]
      decide
    refine ⟨?_, ?_, ?_⟩
    · intro hfs
      simp only [SemOta.handleDownload, if_neg hne, if_neg hsep2, hfs]
    · intro hfs
      simp only [SemOta.handleDownload, if_neg hne, if_neg hsep2, hfs]
    · intro content hfs
      simp only [SemOta.handleDownload, if_neg hne, if_neg hsep2, hfs]

/-- Concrete instance of `claim5_download_status_cases`: the directory
case answers 400. -/
theorem claim5_download_status_cases_witness :
    SemOta.handleDownload
      (fun p => if p = filepathJoin SemOta.filesDir "app_1.0.0.zip"
        then FsObj.directory else FsObj.missing) "app_1.0.0.zip"
      = .badRequest "Requested file is a directory" :=
  ((claim5_download_status_cases
    (fun p => if p = filepathJoin SemOta.filesDir "app_1.0.0.zip"
      then FsObj.directory else FsObj.missing) "app_1.0.0.zip").2.2
    (by decide) (by decide)).2.1 rfl

/-- Claim C6 counterexample: `filepath.Walk` recurses into
subdirectories, so a file inside a subdirectory of the artifact directory
DOES contribute its version token to the catalog, contrary to the
claim that the traversal skips subdirectories. -/
theorem claim6_subdir_skipped_cex :
    OtaServer.getAvailableVersions
      (.dir "ota_files" [.dir "sub" [.file "app_9.9.9.wasm"]]) = .ok ["9.9.9"] ∧
    OtaServer.getAvailableVersions
      (.dir "ota_files" [.dir "sub" [.file "app_9.9.9.wasm"]]) ≠ .ok [] := by
  refine ⟨rfl, ?_⟩
  intro h
  have h2 : (Except.ok ["9.9.9"] : Except Unit (List String)) = .ok [] := h
  injection h2 with h3
  cases h3

/-- Claim C6 as amended: the walk excludes directory entries themselves
from contributing tokens but recurses into subdirectories, so files at
any depth contribute; an unreadable artifact directory (including an
unreadable subdirectory) aborts the build with the error instead of
producing a catalog. -/
theorem claim6_walk_amended :
    (∀ n, OtaServer.getAvailableVersions (.errDir n) = .error ()) ∧
    (∀ rootName subName rest,
      OtaServer.getAvailableVersions (.dir rootName (FsEntry.errDir subName :: rest))
        = .error ()) ∧
    (∀ rootName subName leafName,
      OtaServer.extractVersionFromFile leafName ≠ "" →
      OtaServer.getAvailableVersions
          (.dir rootName [.dir subName [.file leafName]])
        = .ok [OtaServer.extractVersionFromFile leafName]) := by
  refine ⟨fun n => rfl, ?_, ?_⟩
  · intro rootName subName rest
    have hwl : walkEntries.walkList (FsEntry.errDir subName :: rest) = .error () := by
      cases hrest : walkEntries.walkList rest with
      | error u => simp [walkEntries.walkList, hrest, walkEntries]
      | ok l => simp [walkEntries.walkList, hrest, walkEntries]
    have hw : walkEntries (.dir rootName (FsEntry.errDir subName :: rest)) = .error () := by
      simp [walkEntries, hwl]
    simp [OtaServer.getAvailableVersions, hw]
  intro rn sn f hf
  have hw : walkEntries (.dir rn [.dir sn [.file f]])
      = .ok [(rn, true), (sn, true), (f, false)] := rfl
  simp only [OtaServer.getAvailableVersions, hw]
  simp [hf]

/-- Concrete instance of `claim6_walk_amended`. -/
theorem claim6_walk_amended_witness :
    OtaServer.getAvailableVersions
      (.dir "ota_files" [.dir "sub" [.file "one-second-delay_1.2.0.wasm"]])
      = .ok [OtaServer.extractVersionFromFile "one-second-delay_1.2.0.wasm"] :=
  claim6_walk_amended.2.2 "ota_files" "sub" "one-second-delay_1.2.0.wasm" (by decide)

theorem parseUint64_ne_empty {s : String} {n : Nat} (h : SemOta.parseUint64 s = some n) :
    s ≠ "" := by
  intro he
  rw [he] at h
  cases h

theorem comparePrePart_self (s : String) : SemOta.comparePrePart s s = .eq := by
  unfold SemOta.comparePrePart
  rw [if_pos rfl]

theorem comparePrePart_eq_iff (s o : String) :
    SemOta.comparePrePart s o = .eq ↔ s = o := by
  constructor
  · intro h
    by_contra hne
    unfold SemOta.comparePrePart at h
    rw [if_neg hne] at h
    by_cases hs : s = ""
    · rw [if_pos hs] at h
      by_cases ho : o ≠ ""
      · rw [if_pos ho] at h; cases h
      · rw [if_neg ho] at h; cases h
    · rw [if_neg hs] at h
      by_cases ho : o = ""
      · rw [if_pos ho, if_pos hs] at h
        cases h
      · rw [if_neg ho] at h
        cases hpo : SemOta.parseUint64 o with
        | none =>
          cases hps : SemOta.parseUint64 s with
          | none =>
            simp only [hpo, hps] at h
            by_cases hg : goStringLt o s = true
            · rw [if_pos hg] at h; cases h
            · rw [if_neg hg] at h; cases h
          | some si =>
            simp only [hpo, hps] at h
            cases h
        | some oi =>
          cases hps : SemOta.parseUint64 s with
          | none =>
            simp only [hpo, hps] at h
            cases h
          | some si =>
            simp only [hpo, hps] at h
            by_cases hg : oi < si
            · rw [if_pos hg] at h; cases h
            · rw [if_neg hg] at h; cases h
  · intro h
    rw [h]
    exact comparePrePart_self o

theorem comparePrePart_gt_iff (s o : String) :
    SemOta.comparePrePart s o = .gt ↔
      (s ≠ "" ∧ o = "") ∨
      (s ≠ "" ∧ o ≠ "" ∧ SemOta.parseUint64 o = none ∧ SemOta.parseUint64 s = none ∧
        goStringLt o s = true) ∨
      (s ≠ "" ∧ (∃ oi, SemOta.parseUint64 o = some oi) ∧ SemOta.parseUint64 s = none) ∨
      (∃ oi si, SemOta.parseUint64 o = some oi ∧ SemOta.parseUint64 s = some si ∧ oi < si) := by
  constructor
  · intro h
    by_cases hne : s = o
    · rw [hne, comparePrePart_self] at h
      cases h
    unfold SemOta.comparePrePart at h
    rw [if_neg hne] at h
    by_cases hs : s = ""
    · rw [if_pos hs] at h
      by_cases ho : o ≠ ""
      · rw [if_pos ho] at h; cases h
      · rw [if_neg ho] at h
        push_neg at ho
        exact absurd (hs.trans ho.symm) hne
    · rw [if_neg hs] at h
      by_cases ho : o = ""
      · exact Or.inl ⟨hs, ho⟩
      · rw [if_neg ho] at h
        cases hpo : SemOta.parseUint64 o with
        | none =>
          cases hps : SemOta.parseUint64 s with
          | none =>
            simp only [hpo, hps] at h
            by_cases hg : goStringLt o s = true
            · exact Or.inr (Or.inl ⟨hs, ho, rfl, rfl, hg⟩)
            · rw [if_neg hg] at h; cases h
          | some si =>
            simp only [hpo, hps] at h
            cases h
        | some oi =>
          cases hps : SemOta.parseUint64 s with
          | none => exact Or.inr (Or.inr (Or.inl ⟨hs, ⟨oi, rfl⟩, rfl⟩))
          | some si =>
            simp only [hpo, hps] at h
            by_cases hg : oi < si
            · exact Or.inr (Or.inr (Or.inr ⟨oi, si, rfl, rfl, hg⟩))
            · rw [if_neg hg] at h; cases h
  · intro h
    have hne : s ≠ o := by
      rcases h with ⟨hs, ho⟩ | ⟨hs, ho, hpo, hps, hg⟩ | ⟨hs, ⟨oi, hpo⟩, hps⟩ |
          ⟨oi, si, hpo, hps, hg⟩
      · intro he; exact hs (he.trans ho)
      · intro he
        rw [he] at hg
        rw [goStringLt_irrefl o] at hg
        cases hg
      · intro he; rw [he, hpo] at hps; cases hps
      · intro he
        rw [he, hpo] at hps
        injection hps with h2
        rw [h2] at hg
        exact absurd hg (lt_irrefl si)
    unfold SemOta.comparePrePart
    rw [if_neg hne]
    rcases h with ⟨hs, ho⟩ | ⟨hs, ho, hpo, hps, hg⟩ | ⟨hs, ⟨oi, hpo⟩, hps⟩ |
        ⟨oi, si, hpo, hps, hg⟩
    · rw [if_neg hs, if_pos ho, if_pos hs]
    · rw [if_neg hs, if_neg ho]
      simp only [hpo, hps]
      rw [if_pos hg]
    · have ho : o ≠ "" := parseUint64_ne_empty hpo
      rw [if_neg hs, if_neg ho]
      simp only [hpo, hps]
    · have ho : o ≠ "" := parseUint64_ne_empty hpo
      have hs : s ≠ "" := parseUint64_ne_empty hps
      rw [if_neg hs, if_neg ho]
      simp only [hpo, hps]
      rw [if_pos hg]

theorem goStringLt_trans {a b c : String} (h1 : goStringLt a b = true)
    (h2 : goStringLt b c = true) : goStringLt a c = true := by
  rw [goStringLt_iff] at h1 h2 ⊢
  exact lt_trans h1 h2

theorem comparePrePart_gt_trans {a b c : String}
    (h1 : SemOta.comparePrePart b a = .gt) (h2 : SemOta.comparePrePart c b = .gt) :
    SemOta.comparePrePart c a = .gt := by
  rw [comparePrePart_gt_iff] at h1 h2 ⊢
  rcases h1 with ⟨hb, ha⟩ | ⟨hb, ha, hpa, hpb, hg1⟩ | ⟨hb, ⟨ai, hpa⟩, hpb⟩ |
      ⟨ai, bi, hpa, hpb, hg1⟩
  · -- a is empty
    rcases h2 with ⟨hc, hb2⟩ | ⟨hc, hb2, hpb2, hpc, hg2⟩ | ⟨hc, ⟨bi, hpb2⟩, hpc⟩ |
        ⟨bi, ci, hpb2, hpc, hg2⟩
    · exact absurd hb2 (by exact fun h => hb h)
    · exact Or.inl ⟨hc, ha⟩
    · exact Or.inl ⟨hc, ha⟩
    · exact Or.inl ⟨parseUint64_ne_empty hpc, ha⟩
  · -- a, b both non-numeric strings, a < b
    rcases h2 with ⟨hc, hb2⟩ | ⟨hc, hb2, hpb2, hpc, hg2⟩ | ⟨hc, ⟨bi, hpb2⟩, hpc⟩ |
        ⟨bi, ci, hpb2, hpc, hg2⟩
    · exact absurd hb2 hb
    · exact Or.inr (Or.inl ⟨hc, ha, hpa, hpc, goStringLt_trans hg1 hg2⟩)
    · rw [hpb] at hpb2; cases hpb2
    · rw [hpb] at hpb2; cases hpb2
  · -- a numeric, b non-numeric string
    rcases h2 with ⟨hc, hb2⟩ | ⟨hc, hb2, hpb2, hpc, hg2⟩ | ⟨hc, ⟨bi, hpb2⟩, hpc⟩ |
        ⟨bi, ci, hpb2, hpc, hg2⟩
    · exact absurd hb2 hb
    · exact Or.inr (Or.inr (Or.inl ⟨hc, ⟨ai, hpa⟩, hpc⟩))
    · rw [hpb] at hpb2; cases hpb2
    · rw [hpb] at hpb2; cases hpb2
  · -- a, b both numeric, value of a < value of b
    rcases h2 with ⟨hc, hb2⟩ | ⟨hc, hb2, hpb2, hpc, hg2⟩ | ⟨hc, ⟨bi2, hpb2⟩, hpc⟩ |
        ⟨bi2, ci, hpb2, hpc, hg2⟩
    · exact absurd (parseUint64_ne_empty hpb) (by intro h; exact h hb2)
    · rw [hpb] at hpb2; cases hpb2
    · exact Or.inr (Or.inr (Or.inl ⟨hc, ⟨ai, hpa⟩, hpc⟩))
    · refine Or.inr (Or.inr (Or.inr ⟨ai, ci, hpa, hpc, ?_⟩))
      rw [hpb] at hpb2
      injection hpb2 with hb3
      rw [← hb3] at hg2
      exact lt_trans hg1 hg2

theorem comparePreCount_self (n : Nat) : ∀ (x : List String),
    SemOta.comparePreCount n x x = .eq := by
  induction n with
  | zero => intro x; rfl
  | succ m ih =>
    intro x
    simp only [SemOta.comparePreCount, comparePrePart_self]
    exact ih x.tail

theorem comparePreCount_gt_ge (n : Nat) : ∀ (A B C : List String),
    SemOta.comparePreCount n B A = .gt → SemOta.comparePreCount n C B ≠ .lt →
    SemOta.comparePreCount n C A = .gt := by
  induction n with
  | zero => intro A B C h1 _; cases h1
  | succ m ih =>
    intro A B C h1 h2
    simp only [SemOta.comparePreCount] at h1 h2 ⊢
    cases hba : SemOta.comparePrePart (B.headD "") (A.headD "") with
    | lt => rw [hba] at h1; cases h1
    | eq =>
      rw [hba] at h1
      have hBA : B.headD "" = A.headD "" := (comparePrePart_eq_iff _ _).mp hba
      cases hcb : SemOta.comparePrePart (C.headD "") (B.headD "") with
      | lt => rw [hcb] at h2; exact absurd rfl h2
      | eq =>
        rw [hcb] at h2
        have hCB : C.headD "" = B.headD "" := (comparePrePart_eq_iff _ _).mp hcb
        have hca : SemOta.comparePrePart (C.headD "") (A.headD "") = .eq := by
          rw [hCB, hBA]
          exact comparePrePart_self _
        rw [hca]
        exact ih A.tail B.tail C.tail h1 h2
      | gt =>
        have hca : SemOta.comparePrePart (C.headD "") (A.headD "") = .gt := by
          rw [← hBA]
          exact hcb
        rw [hca]
    | gt =>
      cases hcb : SemOta.comparePrePart (C.headD "") (B.headD "") with
      | lt => rw [hcb] at h2; exact absurd rfl h2
      | eq =>
        have hCB : C.headD "" = B.headD "" := (comparePrePart_eq_iff _ _).mp hcb
        have hca : SemOta.comparePrePart (C.headD "") (A.headD "") = .gt := by
          rw [hCB]
          exact hba
        rw [hca]
      | gt =>
        rw [comparePrePart_gt_trans hba hcb]

theorem comparePreCount_eq_eq (n : Nat) : ∀ (A B C : List String),
    SemOta.comparePreCount n B A = .eq → SemOta.comparePreCount n C B = .eq →
    SemOta.comparePreCount n C A = .eq := by
  induction n with
  | zero => intro A B C _ _; rfl
  | succ m ih =>
    intro A B C h1 h2
    simp only [SemOta.comparePreCount] at h1 h2 ⊢
    cases hba : SemOta.comparePrePart (B.headD "") (A.headD "") with
    | lt => rw [hba] at h1; cases h1
    | gt => rw [hba] at h1; cases h1
    | eq =>
      rw [hba] at h1
      have hBA : B.headD "" = A.headD "" := (comparePrePart_eq_iff _ _).mp hba
      cases hcb : SemOta.comparePrePart (C.headD "") (B.headD "") with
      | lt => rw [hcb] at h2; cases h2
      | gt => rw [hcb] at h2; cases h2
      | eq =>
        rw [hcb] at h2
        have hCB : C.headD "" = B.headD "" := (comparePrePart_eq_iff _ _).mp hcb
        have hca : SemOta.comparePrePart (C.headD "") (A.headD "") = .eq := by
          rw [hCB, hBA]
          exact comparePrePart_self _
        rw [hca]
        exact ih A.tail B.tail C.tail h1 h2

theorem comparePreCount_eq_gt (n : Nat) : ∀ (A B C : List String),
    SemOta.comparePreCount n B A = .eq → SemOta.comparePreCount n C B = .gt →
    SemOta.comparePreCount n C A = .gt := by
  induction n with
  | zero => intro A B C _ h2; cases h2
  | succ m ih =>
    intro A B C h1 h2
    simp only [SemOta.comparePreCount] at h1 h2 ⊢
    cases hba : SemOta.comparePrePart (B.headD "") (A.headD "") with
    | lt => rw [hba] at h1; cases h1
    | gt => rw [hba] at h1; cases h1
    | eq =>
      rw [hba] at h1
      have hBA : B.headD "" = A.headD "" := (comparePrePart_eq_iff _ _).mp hba
      cases hcb : SemOta.comparePrePart (C.headD "") (B.headD "") with
      | lt => rw [hcb] at h2; cases h2
      | eq =>
        rw [hcb] at h2
        have hCB : C.headD "" = B.headD "" := (comparePrePart_eq_iff _ _).mp hcb
        have hca : SemOta.comparePrePart (C.headD "") (A.headD "") = .eq := by
          rw [hCB, hBA]
          exact comparePrePart_self _
        rw [hca]
        exact ih A.tail B.tail C.tail h1 h2
      | gt =>
        have hca : SemOta.comparePrePart (C.headD "") (A.headD "") = .gt := by
          rw [← hBA]
          exact hcb
        rw [hca]

theorem comparePreCount_succ_stable : ∀ (n : Nat) (x y : List String),
    max x.length y.length ≤ n →
    SemOta.comparePreCount (n + 1) x y = SemOta.comparePreCount n x y := by
  intro n
  induction n with
  | zero =>
    intro x y hxy
    have hx : x = [] := List.length_eq_zero.mp (Nat.le_zero.mp (le_trans (le_max_left _ _) hxy))
    have hy : y = [] := List.length_eq_zero.mp (Nat.le_zero.mp (le_trans (le_max_right _ _) hxy))
    subst hx; subst hy
    rfl
  | succ m ih =>
    intro x y hxy
    show SemOta.comparePreCount (m + 1 + 1) x y = SemOta.comparePreCount (m + 1) x y
    simp only [SemOta.comparePreCount]
    cases hh : SemOta.comparePrePart (x.headD "") (y.headD "") with
    | lt => rfl
    | gt => rfl
    | eq =>
      apply ih
      have hx : x.tail.length ≤ m := by
        cases x with
        | nil => simp
        | cons a t =>
          simp only [List.length_cons, max_le_iff] at hxy
          simp only [List.tail_cons]
          omega
      have hy : y.tail.length ≤ m := by
        cases y with
        | nil => simp
        | cons a t =>
          simp only [List.length_cons, max_le_iff] at hxy
          simp only [List.tail_cons]
          omega
      exact max_le hx hy

theorem comparePreCount_stable : ∀ (m n : Nat) (x y : List String),
    max x.length y.length ≤ n → n ≤ m →
    SemOta.comparePreCount m x y = SemOta.comparePreCount n x y := by
  intro m
  induction m with
  | zero =>
    intro n x y _ hnm
    rw [Nat.le_zero.mp hnm]
  | succ k ih =>
    intro n x y hxy hnm
    rcases Nat.lt_or_ge n (k + 1) with hlt | hge
    · have hnk : n ≤ k := Nat.lt_succ_iff.mp hlt
      rw [comparePreCount_succ_stable k x y (le_trans hxy hnk)]
      exact ih n x y hxy hnk
    · have : n = k + 1 := le_antisymm hnm hge
      rw [this]

theorem comparePrerelease_gt_ge {a b c : String}
    (h1 : SemOta.comparePrerelease b a = .gt)
    (h2 : SemOta.comparePrerelease c b ≠ .lt) :
    SemOta.comparePrerelease c a = .gt := by
  unfold SemOta.comparePrerelease at h1 h2 ⊢
  set Pa := goSplit a '.' with hPa
  set Pb := goSplit b '.' with hPb
  set Pc := goSplit c '.' with hPc
  set N := max (max Pa.length Pb.length) Pc.length with hN
  have hba : max Pb.length Pa.length ≤ N := by omega
  have hcb : max Pc.length Pb.length ≤ N := by omega
  have hca : max Pc.length Pa.length ≤ N := by omega
  have h1N : SemOta.comparePreCount N Pb Pa = .gt := by
    rw [comparePreCount_stable N (max Pb.length Pa.length) Pb Pa (le_refl _) hba]
    exact h1
  have h2N : SemOta.comparePreCount N Pc Pb ≠ .lt := by
    rw [comparePreCount_stable N (max Pc.length Pb.length) Pc Pb (le_refl _) hcb]
    exact h2
  rw [← comparePreCount_stable N (max Pc.length Pa.length) Pc Pa (le_refl _) hca]
  exact comparePreCount_gt_ge N Pa Pb Pc h1N h2N

theorem comparePrerelease_eq_eq {a b c : String}
    (h1 : SemOta.comparePrerelease b a = .eq)
    (h2 : SemOta.comparePrerelease c b = .eq) :
    SemOta.comparePrerelease c a = .eq := by
  unfold SemOta.comparePrerelease at h1 h2 ⊢
  set Pa := goSplit a '.' with hPa
  set Pb := goSplit b '.' with hPb
  set Pc := goSplit c '.' with hPc
  set N := max (max Pa.length Pb.length) Pc.length with hN
  have hba : max Pb.length Pa.length ≤ N := by omega
  have hcb : max Pc.length Pb.length ≤ N := by omega
  have hca : max Pc.length Pa.length ≤ N := by omega
  have h1N : SemOta.comparePreCount N Pb Pa = .eq := by
    rw [comparePreCount_stable N (max Pb.length Pa.length) Pb Pa (le_refl _) hba]
    exact h1
  have h2N : SemOta.comparePreCount N Pc Pb = .eq := by
    rw [comparePreCount_stable N (max Pc.length Pb.length) Pc Pb (le_refl _) hcb]
    exact h2
  rw [← comparePreCount_stable N (max Pc.length Pa.length) Pc Pa (le_refl _) hca]
  exact comparePreCount_eq_eq N Pa Pb Pc h1N h2N

theorem comparePrerelease_eq_gt {a b c : String}
    (h1 : SemOta.comparePrerelease b a = .eq)
    (h2 : SemOta.comparePrerelease c b = .gt) :
    SemOta.comparePrerelease c a = .gt := by
  unfold SemOta.comparePrerelease at h1 h2 ⊢
  set Pa := goSplit a '.' with hPa
  set Pb := goSplit b '.' with hPb
  set Pc := goSplit c '.' with hPc
  set N := max (max Pa.length Pb.length) Pc.length with hN
  have hba : max Pb.length Pa.length ≤ N := by omega
  have hcb : max Pc.length Pb.length ≤ N := by omega
  have hca : max Pc.length Pa.length ≤ N := by omega
  have h1N : SemOta.comparePreCount N Pb Pa = .eq := by
    rw [comparePreCount_stable N (max Pb.length Pa.length) Pb Pa (le_refl _) hba]
    exact h1
  have h2N : SemOta.comparePreCount N Pc Pb = .gt := by
    rw [comparePreCount_stable N (max Pc.length Pb.length) Pc Pb (le_refl _) hcb]
    exact h2
  rw [← comparePreCount_stable N (max Pc.length Pa.length) Pc Pa (le_refl _) hca]
  exact comparePreCount_eq_gt N Pa Pb Pc h1N h2N

theorem comparePreTop_eval (x y : String) :
    SemOta.comparePreTop x y =
      if x = "" then (if y = "" then .eq else .gt)
      else if y = "" then .lt else SemOta.comparePrerelease x y := by
  unfold SemOta.comparePreTop
  by_cases hx : x = "" <;> by_cases hy : y = "" <;> simp [hx, hy]

theorem comparePreTop_gt_ge {a b c : String}
    (h1 : SemOta.comparePreTop b a = .gt) (h2 : SemOta.comparePreTop c b ≠ .lt) :
    SemOta.comparePreTop c a = .gt := by
  rw [comparePreTop_eval] at h1 h2 ⊢
  by_cases ha : a = "" <;> by_cases hb : b = "" <;> by_cases hc : c = "" <;>
      simp [ha, hb, hc] at h1 h2 ⊢
  exact comparePrerelease_gt_ge h1 h2

theorem comparePreTop_eq_eq {a b c : String}
    (h1 : SemOta.comparePreTop b a = .eq) (h2 : SemOta.comparePreTop c b = .eq) :
    SemOta.comparePreTop c a = .eq := by
  rw [comparePreTop_eval] at h1 h2 ⊢
  by_cases ha : a = "" <;> by_cases hb : b = "" <;> by_cases hc : c = "" <;>
      simp [ha, hb, hc] at h1 h2 ⊢
  exact comparePrerelease_eq_eq h1 h2

theorem comparePreTop_eq_gt {a b c : String}
    (h1 : SemOta.comparePreTop b a = .eq) (h2 : SemOta.comparePreTop c b = .gt) :
    SemOta.comparePreTop c a = .gt := by
  rw [comparePreTop_eval] at h1 h2 ⊢
  by_cases ha : a = "" <;> by_cases hb : b = "" <;> by_cases hc : c = "" <;>
      simp [ha, hb, hc] at h1 h2 ⊢
  exact comparePrerelease_eq_gt h1 h2

/-- The three composition properties of a comparator that the lexicographic
chaining in `Version.Compare` preserves: `gt` absorbs a non-`lt` on the
left, and `eq` composes with `eq` and `gt`. -/
def OrdCompat {α : Type} (f : α → α → Ordering) : Prop :=
  (∀ a b c, f b a = .gt → f c b ≠ .lt → f c a = .gt) ∧
  (∀ a b c, f b a = .eq → f c b = .eq → f c a = .eq) ∧
  (∀ a b c, f b a = .eq → f c b = .gt → f c a = .gt)

theorem then_eq_gt {a b : Ordering} : a.then b = .gt ↔ a = .gt ∨ (a = .eq ∧ b = .gt) := by
  cases a <;> simp [Ordering.then]

theorem then_eq_eq {a b : Ordering} : a.then b = .eq ↔ a = .eq ∧ b = .eq := by
  cases a <;> simp [Ordering.then]

theorem then_ne_lt {a b : Ordering} : a.then b ≠ .lt ↔ a = .gt ∨ (a = .eq ∧ b ≠ .lt) := by
  cases a <;> simp [Ordering.then]

theorem ordCompat_then {α : Type} {f g : α → α → Ordering}
    (hf : OrdCompat f) (hg : OrdCompat g) :
    OrdCompat (fun v o => (f v o).then (g v o)) := by
  obtain ⟨f1, f2, f3⟩ := hf
  obtain ⟨g1, g2, g3⟩ := hg
  refine ⟨?_, ?_, ?_⟩
  · intro a b c h1 h2
    simp only [then_eq_gt] at h1 ⊢
    simp only [then_ne_lt] at h2
    rcases h1 with hba | ⟨hba, gba⟩
    · rcases h2 with hcb | ⟨hcb, gcb⟩
      · exact Or.inl (f1 a b c hba (by rw [hcb]; intro h; cases h))
      · exact Or.inl (f1 a b c hba (by rw [hcb]; intro h; cases h))
    · rcases h2 with hcb | ⟨hcb, gcb⟩
      · exact Or.inl (f3 a b c hba hcb)
      · exact Or.inr ⟨f2 a b c hba hcb, g1 a b c gba gcb⟩
  · intro a b c h1 h2
    simp only [then_eq_eq] at h1 h2 ⊢
    exact ⟨f2 a b c h1.1 h2.1, g2 a b c h1.2 h2.2⟩
  · intro a b c h1 h2
    simp only [then_eq_eq] at h1
    simp only [then_eq_gt] at h2 ⊢
    rcases h2 with hcb | ⟨hcb, gcb⟩
    · exact Or.inl (f3 a b c h1.1 hcb)
    · exact Or.inr ⟨f2 a b c h1.1 hcb, g3 a b c h1.2 gcb⟩

theorem compareSegment_lt_iff (v o : Nat) : SemOta.compareSegment v o = .lt ↔ v < o := by
  unfold SemOta.compareSegment
  split_ifs with h1 h2
  · simp [h1]
  · constructor
    · intro h; cases h
    · intro h; omega
  · constructor
    · intro h; cases h
    · intro h; omega

theorem compareSegment_gt_iff (v o : Nat) : SemOta.compareSegment v o = .gt ↔ o < v := by
  unfold SemOta.compareSegment
  split_ifs with h1 h2
  · constructor
    · intro h; cases h
    · intro h; omega
  · simp [h2]
  · constructor
    · intro h; cases h
    · intro h; omega

theorem compareSegment_eq_iff (v o : Nat) : SemOta.compareSegment v o = .eq ↔ v = o := by
  unfold SemOta.compareSegment
  split_ifs with h1 h2
  · constructor
    · intro h; cases h
    · intro h; omega
  · constructor
    · intro h; cases h
    · intro h; omega
  · constructor
    · intro _; omega
    · intro _; rfl

theorem ordCompat_compareSegment : OrdCompat SemOta.compareSegment := by
  refine ⟨?_, ?_, ?_⟩
  · intro a b c h1 h2
    rw [compareSegment_gt_iff] at h1 ⊢
    have h2b : ¬(c < b) := fun hlt => h2 ((compareSegment_lt_iff c b).mpr hlt)
    omega
  · intro a b c h1 h2
    rw [compareSegment_eq_iff] at h1 h2 ⊢
    omega
  · intro a b c h1 h2
    rw [compareSegment_eq_iff] at h1
    rw [compareSegment_gt_iff] at h2 ⊢
    omega

theorem ordCompat_semverCompare : OrdCompat SemOta.semverCompare := by
  have hpre : OrdCompat (fun v o : SemOta.SemVer => SemOta.comparePreTop v.pre o.pre) :=
    ⟨fun a b c h1 h2 => comparePreTop_gt_ge h1 h2,
     fun a b c h1 h2 => comparePreTop_eq_eq h1 h2,
     fun a b c h1 h2 => comparePreTop_eq_gt h1 h2⟩
  have hpat : OrdCompat
      (fun v o : SemOta.SemVer => SemOta.compareSegment v.patch o.patch) :=
    ⟨fun a b c => ordCompat_compareSegment.1 a.patch b.patch c.patch,
     fun a b c => ordCompat_compareSegment.2.1 a.patch b.patch c.patch,
     fun a b c => ordCompat_compareSegment.2.2 a.patch b.patch c.patch⟩
  have hmin : OrdCompat
      (fun v o : SemOta.SemVer => SemOta.compareSegment v.minor o.minor) :=
    ⟨fun a b c => ordCompat_compareSegment.1 a.minor b.minor c.minor,
     fun a b c => ordCompat_compareSegment.2.1 a.minor b.minor c.minor,
     fun a b c => ordCompat_compareSegment.2.2 a.minor b.minor c.minor⟩
  have hmaj : OrdCompat
      (fun v o : SemOta.SemVer => SemOta.compareSegment v.major o.major) :=
    ⟨fun a b c => ordCompat_compareSegment.1 a.major b.major c.major,
     fun a b c => ordCompat_compareSegment.2.1 a.major b.major c.major,
     fun a b c => ordCompat_compareSegment.2.2 a.major b.major c.major⟩
  exact ordCompat_then hmaj (ordCompat_then hmin (ordCompat_then hpat hpre))

theorem compareSegment_self (v : Nat) : SemOta.compareSegment v v = .eq :=
  (compareSegment_eq_iff v v).mpr rfl

theorem comparePreTop_self (p : String) : SemOta.comparePreTop p p = .eq := by
  rw [comparePreTop_eval]
  by_cases hp : p = ""
  · simp [hp]
  · simp only [if_neg hp]
    unfold SemOta.comparePrerelease
    exact comparePreCount_self _ _

theorem semverCompare_self (v : SemOta.SemVer) : SemOta.semverCompare v v = .eq := by
  unfold SemOta.semverCompare
  rw [compareSegment_self, compareSegment_self, compareSegment_self, comparePreTop_self]
  rfl

theorem sgt_iff (v o : SemOta.SemVer) :
    SemOta.semverGreaterThan v o = true ↔ SemOta.semverCompare v o = .gt := by
  unfold SemOta.semverGreaterThan
  cases SemOta.semverCompare v o <;> decide

theorem handleCheckLoop_eq (versions : List SemOta.SVersionInfo) (cur : SemOta.SemVer) :
    SemOta.handleCheckLoop versions cur =
      ((versions.filter
          (fun v => SemOta.semverGreaterThan v.version cur)).getLast?).elim none some := by
  unfold SemOta.handleCheckLoop
  exact foldl_pick_last (fun v => SemOta.semverGreaterThan v.version cur) versions none

/-- Claim C10: on a catalog sorted ascending by semver precedence, as
`loadVersions` leaves it, the `handleCheck` selection loop — keep the
last entry `GreaterThan` the client's version — returns exactly what the
simpler spec-level rule "compare the catalog maximum against the current
version and offer the maximum" returns, the last entry being a maximum of
the catalog under `Version.Compare`. -/
theorem claim10_handleCheck_offers_max (versions : List SemOta.SVersionInfo)
    (cur : SemOta.SemVer) (hsorted : SemOta.SortedBySemver versions) :
    SemOta.handleCheckLoop versions cur = SemOta.specCheckOfferMax versions cur ∧
    (∀ m, versions.getLast? = some m →
      ∀ v ∈ versions, SemOta.semverCompare m.version v.version ≠ .lt) := by
  constructor
  · rw [handleCheckLoop_eq]
    unfold SemOta.specCheckOfferMax
    cases hgl : versions.getLast? with
    | none =>
      have hnil : versions = [] := List.getLast?_eq_none_iff.mp hgl
      subst hnil
      rfl
    | some m =>
      show _ = if SemOta.semverGreaterThan m.version cur = true then some m else none
      by_cases hm : SemOta.semverGreaterThan m.version cur = true
      · rw [if_pos hm]
        have hne : versions ≠ [] := by
          intro h
          rw [h] at hgl
          cases hgl
        have hm2 : versions.getLast hne = m := by
          have hq := List.getLast?_eq_getLast versions hne
          rw [hq] at hgl
          injection hgl with h2
        have hsplit : versions.dropLast ++ [m] = versions := by
          rw [← hm2]
          exact List.dropLast_append_getLast hne
        rw [← hsplit, List.filter_append]
        simp only [List.filter_cons, hm, if_true, List.filter_nil]
        rw [List.getLast?_concat]
        rfl
      · rw [if_neg hm]
        have hnone : versions.filter
            (fun v => SemOta.semverGreaterThan v.version cur) = [] := by
          rw [List.filter_eq_nil_iff]
          intro v hv hpv
          rcases pairwise_getLast hsorted hv hgl with he | hr
          · rw [he] at hpv
            exact hm hpv
          · apply hm
            rw [sgt_iff] at hpv ⊢
            exact ordCompat_semverCompare.1 cur v.version m.version hpv hr
        rw [hnone]
        rfl
  · intro m hgl v hv
    rcases pairwise_getLast hsorted hv hgl with he | hr
    · rw [he, semverCompare_self]
      intro h
      cases h
    · exact hr

/-- Concrete instance of `claim10_handleCheck_offers_max`. -/
theorem claim10_handleCheck_offers_max_witness :
    SemOta.handleCheckLoop
      [⟨⟨1, 0, 0, ""⟩, "app_1.0.0.zip", "u1"⟩, ⟨⟨2, 0, 0, ""⟩, "app_2.0.0.zip", "u2"⟩]
      ⟨1, 0, 0, ""⟩
      = SemOta.specCheckOfferMax
        [⟨⟨1, 0, 0, ""⟩, "app_1.0.0.zip", "u1"⟩, ⟨⟨2, 0, 0, ""⟩, "app_2.0.0.zip", "u2"⟩]
        ⟨1, 0, 0, ""⟩ :=
  (claim10_handleCheck_offers_max
    [⟨⟨1, 0, 0, ""⟩, "app_1.0.0.zip", "u1"⟩, ⟨⟨2, 0, 0, ""⟩, "app_2.0.0.zip", "u2"⟩]
    ⟨1, 0, 0, ""⟩ (by
      refine List.Pairwise.cons ?_ (List.Pairwise.cons ?_ List.Pairwise.nil)
      · intro b hb
        rw [List.mem_singleton.mp hb]
        decide
      · intro b hb
        cases hb)).1
